import Mathlib

/-!
Shallow embedding of the extraction/normalization pipeline of
`threat_intel.py` (MITRE TTP web tracker).

Strings are modelled as `List Char` (`Str`).  External libraries
(`dateutil`, `requests`/`BeautifulSoup`, `tldextract`, `spacy`, `pycountry`
data, the MaxMind GeoIP database, and the full Python `re` engine used for
the opaque MAPPINGS patterns) are modelled as components of an explicit
environment record; everything that is code of the repository itself
(tables, control flow, dedup logic, the simple word/actor regexes, which
only use literals, `\s*`, a single optional character and `\b` anchors) is
translated directly from the source.
-/

namespace ThreatIntel

abbrev Str := List Char

/-- Python `\w` test (ASCII letters/digits/underscore; every non-ASCII
codepoint is conservatively treated as a word character, which is exact for
all concrete inputs used below). -/
def isWordChar (c : Char) : Bool := c.isAlphanum || c == '_' || decide (128 ≤ c.toNat)

/-- Python `str.isspace`-style whitespace, restricted to the ASCII
whitespace characters (the only ones occurring in the repository's data). -/
def isSpaceChar (c : Char) : Bool :=
  c == ' ' || c == '\t' || c == '\n' || c == '\r' || c == '\x0b' || c == '\x0c'

def isDigitChar (c : Char) : Bool := decide ('0' ≤ c) && decide (c ≤ '9')

/-- Python `str.lower`, character-wise, restricted to ASCII (model of Python's
Unicode lowercasing; exact on ASCII data). -/
def lowerChar (c : Char) : Char :=
  if 65 ≤ c.toNat && c.toNat ≤ 90 then Char.ofNat (c.toNat + 32) else c

/-- Python `str.upper`, character-wise, ASCII. -/
def upperChar (c : Char) : Char :=
  if 97 ≤ c.toNat && c.toNat ≤ 122 then Char.ofNat (c.toNat - 32) else c

def lowerStr (s : Str) : Str := s.map lowerChar

def upperStr (s : Str) : Str := s.map upperChar

/-- Python `str.strip()`: drop whitespace from both ends. -/
def pyStrip (s : Str) : Str :=
  ((s.dropWhile isSpaceChar).reverse.dropWhile isSpaceChar).reverse

/-- NFKD decompositions of the non-ASCII characters appearing in the
repository's tables (model of `unicodedata.normalize("NFKD", ·)`;
characters not listed — including all of ASCII, Cyrillic, Greek base
letters, CJK and Arabic — decompose to themselves). -/
def nfkdTable : List (Char × List Char) :=
  [('á', ['a', '́']), ('à', ['a', '̀']), ('â', ['a', '̂']),
   ('ä', ['a', '̈']), ('å', ['a', '̊']), ('ã', ['a', '̃']),
   ('é', ['e', '́']), ('è', ['e', '̀']), ('ê', ['e', '̂']),
   ('ë', ['e', '̈']), ('í', ['i', '́']), ('ì', ['i', '̀']),
   ('î', ['i', '̂']), ('ï', ['i', '̈']), ('ó', ['o', '́']),
   ('ò', ['o', '̀']), ('ô', ['o', '̂']), ('ö', ['o', '̈']),
   ('õ', ['o', '̃']), ('ú', ['u', '́']), ('ù', ['u', '̀']),
   ('û', ['u', '̂']), ('ü', ['u', '̈']), ('ñ', ['n', '̃']),
   ('ç', ['c', '̧']), ('č', ['c', '̌']), ('ý', ['y', '́']),
   ('ά', ['α', '́'])]

def nfkdChar (c : Char) : List Char :=
  match nfkdTable.find? (fun p => p.1 == c) with
  | some p => p.2
  | none => [c]

/-- Combining marks (model of `unicodedata.combining(ch) != 0` for the
characters reachable here). -/
def combiningTable : List Char :=
  ['̀', '́', '̂', '̃', '̈', '̊', '̌', '̧']

def isCombining (c : Char) : Bool := combiningTable.contains c

/-- Model of `_normalize_text_for_match` (threat_intel.py:396-400): NFKD decompose,
drop combining marks, lower-case, strip.  (The Python function maps
non-string input to `""`; inputs here are always strings.) -/
def normalizeText (s : Str) : Str :=
  pyStrip (lowerStr ((s.flatMap nfkdChar).filter (fun c => !isCombining c)))

/-- Python `re` word boundary `\b`: holds between two (optional)
characters iff exactly one of them is a word character. -/
def wordBoundary (a b : Option Char) : Bool :=
  (match a with | none => false | some c => isWordChar c) !=
  (match b with | none => false | some c => isWordChar c)

/-- One step of `re.search(r"\b<literal>\b", hay)`: does `needle` occur in
`hay` starting at the current position (with `prev` the character just
before it), with word boundaries on both sides? otherwise slide right. -/
def wordSearchFrom (needle : Str) : Option Char → Str → Bool
  | prev, hay =>
    (needle.isPrefixOf hay && wordBoundary prev needle.head? &&
      wordBoundary needle.getLast? (hay.drop needle.length).head?) ||
    match hay with
    | [] => false
    | c :: rest => wordSearchFrom needle (some c) rest

/-- Model of `re.search(r"\b" + re.escape(needle) + r"\b", hay)` for a literal
needle, as used by the country-table scans (threat_intel.py:503,512,516). -/
def wordSearch (needle hay : Str) : Bool := wordSearchFrom needle none hay

/-! ### A tiny regex engine for the actor patterns

Every pattern in `ACTOR_PATTERNS` has the shape
`\b lit (\s* lit | lit | lit?)* \b`: literal characters, `\s*` gaps and a
single optional character (`kittens?`).  `RTok` is that fragment. -/

inductive RTok where
  | lit (c : Char)
  | ws
  | opt (c : Char)
deriving DecidableEq

/-- Backtracking helper for `\s*`: try the continuation after skipping any
number of whitespace characters. -/
def skipSpaces (f : Option Char → Str → Bool) : Option Char → Str → Bool
  | last, s =>
    f last s ||
    match s with
    | [] => false
    | a :: s' => isSpaceChar a && skipSpaces f (some a) s'

/-- Match a token list against a prefix of `s` (with `last` the most
recently consumed character), then run continuation `k` on what remains. -/
def matchToks : List RTok → Option Char → Str → (Option Char → Str → Bool) → Bool
  | [], last, s, k => k last s
  | .lit c :: ts, _, s, k =>
    (match s with
     | [] => false
     | a :: s' => a == c && matchToks ts (some a) s' k)
  | .ws :: ts, last, s, k => skipSpaces (fun last' s' => matchToks ts last' s' k) last s
  | .opt c :: ts, last, s, k =>
    (match s with
     | [] => false
     | a :: s' => a == c && matchToks ts (some a) s' k) ||
    matchToks ts last s k

/-- Model of `re.search(r"\b…\b", text)` for an `RTok` pattern: try every start
position, requiring a word boundary before the match and after it. -/
def searchPatFrom (ts : List RTok) : Option Char → Str → Bool
  | prev, s =>
    (wordBoundary prev s.head? &&
      matchToks ts prev s (fun last rest => wordBoundary last rest.head?)) ||
    match s with
    | [] => false
    | c :: rest => searchPatFrom ts (some c) rest

def searchPat (ts : List RTok) (text : Str) : Bool := searchPatFrom ts none text

/-- Literal word pattern `\bw\b`. -/
def wpat (w : String) : List RTok := w.data.map RTok.lit

/-- Two-word pattern `\ba\s*b\b`. -/
def wpat2 (a b : String) : List RTok := wpat a ++ [RTok.ws] ++ wpat b

/-- The `ACTOR_PATTERNS` table (threat_intel.py:337-377), in declaration order. -/
def ACTOR_PATTERNS : List (String × List (List RTok)) :=
  [("APT28 (Fancy Bear / Sofacy)",
      [wpat "apt28", wpat "sofacy", wpat2 "fancy" "bear", wpat "strontium"]),
   ("APT29 (Cozy Bear / The Dukes)",
      [wpat "apt29", wpat2 "cozy" "bear", wpat2 "the" "dukes", wpat "nobelium"]),
   ("Sandworm Team", [wpat "sandworm", wpat "telebots", wpat "blackenergy"]),
   ("APT1 (Comment Crew)",
      [wpat "apt1", wpat2 "comment" "crew", wpat2 "comment" "group"]),
   ("APT3 (Buckeye)", [wpat "apt3", wpat "uckeye", wpat2 "gothic" "panda"]),
   ("APT10 (Stone Panda)", [wpat "apt10", wpat2 "stone" "panda", wpat "menuPass"]),
   ("APT17", [wpat "apt17", wpat "Aurora"]),
   ("APT41 (Double Dragon)", [wpat "apt41", wpat2 "double" "dragon", wpat "barium"]),
   ("Mustang Panda", [wpat2 "mustang" "panda", wpat "redDelta"]),
   ("Lazarus Group", [wpat "lazarus", wpat2 "hidden" "cobra", wpat "labyrinth"]),
   ("Kimsuky", [wpat "kimsuky", wpat "kimsook"]),
   ("Andariel", [wpat "andariel"]),
   ("APT33 (Elfin)", [wpat "apt33", wpat "elfin", wpat "reaper"]),
   ("APT34 (OilRig)", [wpat "apt34", wpat "oilrig", wpat "greenbug"]),
   ("APT35 (Charming Kitten)",
      [wpat "apt35", wpat2 "charming" "kitten", wpat "phosphorus"]),
   ("MuddyWater", [wpat2 "muddy" "water", wpat2 "static" "kitten" ++ [RTok.opt 's']]),
   ("FIN4", [wpat "fin4"]),
   ("FIN5", [wpat "fin5"]),
   ("FIN6", [wpat "fin6"]),
   ("FIN7 (Carbanak)", [wpat "fin7", wpat "carbanak", wpat "ncq"]),
   ("Evil Corp (INDRIK SPIDER)",
      [wpat2 "evil" "corp", wpat2 "indrik" "spider", wpat2 "maksim" "yakubets"]),
   ("TA505", [wpat "ta505"]),
   ("Turla (Snake / Uroburos)",
      [wpat "turla", wpat "snake", wpat "uroburos", wpat "venerable"]),
   ("Gamaredon", [wpat "gamaredon", wpat2 "primitive" "bear"]),
   ("Wizard Spider (Ryuk/Conti)",
      [wpat2 "wizard" "spider", wpat "ryuk", wpat "conti"]),
   ("LockBit", [wpat "lockbit"]),
   ("BlackCat (ALPHV)", [wpat "blackcat", wpat "alphv"]),
   ("REvil (Sodinokibi)", [wpat "revil", wpat "sodinokibi"])]

/-- Inner double loop of `detect_actor` (threat_intel.py:441-445): first
actor one of whose patterns fires on the (already lowered) text wins. -/
def findActor : List (String × List (List RTok)) → Str → String
  | [], _ => ""
  | (actor, pats) :: rest, lowered =>
    if pats.any (fun p => searchPat p lowered) then actor else findActor rest lowered

/-- Model of `detect_actor` (threat_intel.py:439-445): lower-case the text, then
scan `ACTOR_PATTERNS` in declaration order. -/
def detect_actor (text : Str) : String := findActor ACTOR_PATTERNS (lowerStr text)

/-! ### Technique taxonomy and classifier -/

/-- The `MAPPINGS` table (threat_intel.py:292-335): regex pattern (kept opaque — the
full Python `re` dialect with alternation/groups is not modelled; `classify`
takes the `re.search` verdict as an oracle) paired with its description
list, in declaration order. -/
def MAPPINGS : List (String × List String) :=
  [("\\bsocial\\s*engineering\\b", ["Social Engineering (T1566 / TA0001)"]),
   ("\\bpretext(ing)?\\b", ["Pretexting (T1566.004)"]),
   ("\\bbait(ing)?\\b", ["Baiting / Influence Operations (T1586.003)"]),
   ("\\bscam(s)?\\b|\\bfraud(ulent)?\\b", ["Fraud / Social Engineering (TA0001)"]),
   ("\\bimpersonat(e|ion|ing)\\b", ["Impersonation (T1656)"]),
   ("\\bfake\\s*persona(s)?\\b|\\bfake\\s*profile(s)?\\b", ["Fake Online Persona (T1585.001)"]),
   ("\\bid\\s*theft\\b|\\bidentity\\s*fraud\\b", ["Identity Theft (T1589)"]),
   ("\\bCEO\\s*fraud\\b|\\bBEC\\b|\\bbusiness\\s*email\\s*compromise\\b",
      ["Business Email Compromise (T1650)"]),
   ("\\bpsychological\\s*manipulation\\b|\\bpsyops\\b", ["Psychological Operations (T1642)"]),
   ("\\bdisinformation\\b|\\bmisinformation\\b", ["Disinformation Campaigns (T1641)"]),
   ("\\bphishing\\b", ["Phishing (T1566.002)"]),
   ("\\bspear\\s*phish(ing)?\\b|\\bspearphish(ing)?\\b", ["Spearphishing (T1566.001)"]),
   ("\\bwhaling\\b", ["Whaling (T1566.001)"]),
   ("\\bclone\\s*phish(ing)?\\b", ["Clone Phishing (T1566.001)"]),
   ("\\bsmish(ing)?\\b|\\bSMS\\s*phish(ing)?\\b", ["Smishing (T1566.002 - via SMS)"]),
   ("\\bvish(ing)?\\b|\\bvoice\\s*phish(ing)?\\b", ["Vishing (T1566.004 - via phone/voice)"]),
   ("\\bcallback\\s*phish(ing)?\\b", ["Callback Phishing (Hybrid Social Engineering)"]),
   ("\\bwatering\\s*hole\\b", ["Drive-by Compromise (T1189)"]),
   ("\\bmalvertis(ing|ement)\\b", ["Malvertising (T1189)"]),
   ("\\bdrive-?by\\s+download\\b", ["Drive-by Compromise (T1189)"]),
   ("\\bbrute\\s*force\\b", ["Brute Force (T1110)"]),
   ("\\bpassword\\s*spray(ing)?\\b", ["Password Spraying (T1110.003)"]),
   ("\\bMFA\\s*bypass\\b", ["MFA Bypass (T1621)"]),
   ("\\baccount\\s*take\\s*over\\b|\\bATO\\b", ["Account Takeover (T1078)"]),
   ("\\b(command( and)?|cmd)\\s+(and\\s+)?script(ing)?\\b|\\bcommand\\s+line\\b",
      ["Command-Line Interface (T1059.003)"]),
   ("\\bpowershell\\b|\\bpwsh\\b", ["PowerShell (T1059.001)"]),
   ("\\boffice\\s+macro(s)?\\b|\\bvba\\b", ["Malicious Macro (T1137.001)"]),
   ("\\bfinancial\\s+theft\\b|\\bfraud\\b", ["Financial Theft (T1650)"]),
   ("\\bmalware\\b|\\btrojan\\b|\\bspyware\\b|\\badware\\b", ["Malware (TA0002/TA0003)"])]

/-- All technique-description strings that `classify` can ever emit. -/
def descAll : List Str := (MAPPINGS.flatMap (fun m => m.2)).map String.data

/-- Python string `<` (lexicographic by code point), as `≤`. -/
def leStr : Str → Str → Bool
  | [], _ => true
  | _ :: _, [] => false
  | a :: as, b :: bs => a.toNat < b.toNat || (a == b && leStr as bs)

/-- Model of `classify` (threat_intel.py:432-437): union the description lists of
every pattern that fires (`rmatch` = the `re.search(…, re.I)` oracle),
as a sorted duplicate-free list (Python `sorted(set(...))`). -/
def classify (rmatch : String → Str → Bool) (text : Str) : List Str :=
  List.insertionSort (fun a b => leStr a b = true)
    (((MAPPINGS.filter (fun m => rmatch m.1 text)).flatMap
        (fun m => m.2.map String.data)).dedup)

/-! ### Country alias tables (threat_intel.py:33-95 and 97-192) -/

def ALIASES : List (Str × Str) :=
  ([("usa", "United States"), ("us", "United States"), ("u.s.", "United States"),
    ("u.s.a.", "United States"), ("america", "United States"),
    ("united states of america", "United States"), ("the states", "United States"),
    ("uk", "United Kingdom"), ("u.k.", "United Kingdom"),
    ("great britain", "United Kingdom"), ("england", "United Kingdom"),
    ("scotland", "United Kingdom"), ("wales", "United Kingdom"),
    ("northern ireland", "United Kingdom"), ("britain", "United Kingdom"),
    ("south korea", "South Korea"), ("republic of korea", "South Korea"),
    ("rok", "South Korea"), ("north korea", "North Korea"),
    ("democratic people's republic of korea", "North Korea"), ("dprk", "North Korea"),
    ("russia", "Russia"), ("russian federation", "Russia"),
    ("china", "China"), ("prc", "China"), ("people's republic of china", "China"),
    ("india", "India"), ("iran", "Iran"), ("islamic republic of iran", "Iran"),
    ("uae", "United Arab Emirates"), ("u.a.e.", "United Arab Emirates"),
    ("emirates", "United Arab Emirates"),
    ("drc", "Democratic Republic of the Congo"),
    ("dr congo", "Democratic Republic of the Congo"),
    ("congo-kinshasa", "Democratic Republic of the Congo"),
    ("congo-brazzaville", "Republic of the Congo"),
    ("czechia", "Czech Republic"), ("viet nam", "Vietnam"), ("syria", "Syria"),
    ("burma", "Myanmar"), ("ivory coast", "Côte d'Ivoire"),
    ("cote d'ivoire", "Côte d'Ivoire"), ("bolivia", "Bolivia"),
    ("plurinational state of bolivia", "Bolivia"), ("venezuela", "Venezuela"),
    ("bolivarian republic of venezuela", "Venezuela")] :
      List (String × String)).map (fun p => (p.1.data, p.2.data))

def NATIVE_ALIAS_TO_EN : List (Str × Str) :=
  ([("sverige", "Sweden"), ("suomi", "Finland"), ("danmark", "Denmark"),
    ("eesti", "Estonia"), ("latvija", "Latvia"), ("lietuva", "Lithuania"),
    ("norge", "Norway"), ("í­sland", "Iceland"), ("island", "Iceland"),
    ("islanda", "Iceland"),
    ("españa", "Spain"), ("espana", "Spain"), ("deutschland", "Germany"),
    ("italia", "Italy"), ("france", "France"), ("français", "France"),
    ("franca", "France"), ("suisse", "Switzerland"), ("schweiz", "Switzerland"),
    ("svizzera", "Switzerland"), ("österreich", "Austria"), ("austria", "Austria"),
    ("belgië", "Belgium"), ("belgie", "Belgium"), ("belgique", "Belgium"),
    ("brasil", "Brazil"), ("brésil", "Brazil"), ("argentina", "Argentina"),
    ("colombia", "Colombia"), ("chile", "Chile"), ("perú", "Peru"),
    ("peru", "Peru"), ("venezuela", "Venezuela"), ("ecuador", "Ecuador"),
    ("paraguay", "Paraguay"), ("uruguay", "Uruguay"), ("bolivia", "Bolivia"),
    ("россия", "Russia"), ("беларусь", "Belarus"), ("ukraina", "Ukraine"),
    ("україна", "Ukraine"), ("polska", "Poland"),
    ("česká republika", "Czech Republic"), ("česko", "Czech Republic"),
    ("slovensko", "Slovakia"), ("magyarország", "Hungary"),
    ("românia", "Romania"), ("romania", "Romania"), ("bulgaria", "Bulgaria"),
    ("ελλάδα", "Greece"), ("elláda", "Greece"),
    ("中国", "China"), ("中华人民共和国", "China"), ("中國", "China"),
    ("日本", "Japan"), ("nippon", "Japan"), ("nihon", "Japan"),
    ("대한민국", "South Korea"), ("조선민주주의인민공화국", "North Korea"),
    ("भारत", "India"), ("hindustan", "India"), ("pakistan", "Pakistan"),
    ("افغانستان", "Afghanistan"), ("turkiye", "Turkey"), ("türkiye", "Turkey"),
    ("المملكة العربية السعودية", "Saudi Arabia"), ("السعودية", "Saudi Arabia"),
    ("الإمارات", "United Arab Emirates"), ("مصر", "Egypt"), ("iraq", "Iraq"),
    ("ایران", "Iran"), ("israel", "Israel"),
    ("nigeria", "Nigeria"), ("south africa", "South Africa"),
    ("cameroun", "Cameroon"), ("côte d’ivoire", "Côte d'Ivoire"),
    ("cote d'ivoire", "Côte d'Ivoire"), ("marruecos", "Morocco"),
    ("maroc", "Morocco"), ("algérie", "Algeria"), ("algieria", "Algeria")] :
      List (String × String)).map (fun p => (p.1.data, p.2.data))

/-- Python `dict` lookup (keys in these tables are unique, so first match
is exact). -/
def lookupStr (t : List (Str × Str)) (k : Str) : Option Str :=
  (t.find? (fun p => p.1 == k)).map (fun p => p.2)

/-! ### External environment

Everything the pipeline consumes from outside the repository: the
`pycountry` data set, the optional spaCy NER model, `dateutil`'s parser,
network fetches / HTML text extraction, `tldextract`, the MaxMind GeoIP
database and the full `re` engine for the opaque `MAPPINGS` patterns. -/

/-- The `pycountry`-derived data (threat_intel.py:194-213): the
`_NAME_TO_ALPHA` / `_ALPHA_TO_NAME` tables and the library's lookup
functions (each returns the country's `name`, `none` when no country is
found or the call raises). -/
structure PyCountry where
  nameToAlpha : List (Str × Str)
  alphaToName : List (Str × Str)
  alpha2 : Str → Option Str
  alpha3 : Str → Option Str
  fuzzy : Str → Option Str

structure Env where
  pyc : Option PyCountry
  spacyEnts : Option (Str → List (Str × String))
  dateParse : Str → Option Int
  soupText : Str → Str
  fetchArticle : Str → Str
  tldSuffix : Str → Str
  domain : Str → Str
  geoResolve : Str → Option Str
  research : String → Str → Bool

/-- Model of `map_to_country` (threat_intel.py:447-482).  Faithful detail: in the
`_NAME_TO_ALPHA` branch the Python code evaluates the `dict.get` default
`pycountry.countries.get(alpha_2=alpha).name` eagerly, so when that lookup
yields no country the raised `AttributeError` skips to the fuzzy search
even if `_ALPHA_TO_NAME` has the key. -/
def map_to_country (pyc : Option PyCountry) (candidate : Str) : Option Str :=
  if candidate = [] then none
  else
    let n := normalizeText candidate
    match lookupStr ALIASES n with
    | some v => some v
    | none =>
      match lookupStr NATIVE_ALIAS_TO_EN n with
      | some v => some v
      | none =>
        match pyc with
        | none => none
        | some pc =>
          if n = [] then none
          else
            match (if n.length = 2 then pc.alpha2 (upperStr n) else none) with
            | some nm => some nm
            | none =>
              match (if n.length = 3 then pc.alpha3 (upperStr n) else none) with
              | some nm => some nm
              | none =>
                match
                  (match lookupStr pc.nameToAlpha n with
                   | some alpha =>
                     (pc.alpha2 alpha).map
                       (fun defName => (lookupStr pc.alphaToName (upperStr alpha)).getD defName)
                   | none => none) with
                | some nm => some nm
                | none => pc.fuzzy candidate

/-- Append-if-unseen state: `(seen, results)` with exact-string membership
(`seen` is the Python `set`, `results` the ordered output). -/
abbrev CState := List Str × List Str

def addCountry (st : CState) (c : Str) : CState :=
  if st.1.contains c then st else (c :: st.1, st.2 ++ [c])

/-- NER pass of `detect_countries` (threat_intel.py:489-499). -/
def nerPass (pyc : Option PyCountry) (ents : List (Str × String)) (st : CState) : CState :=
  ents.foldl
    (fun st e =>
      if e.2 == "GPE" || e.2 == "LOC" then
        match map_to_country pyc (pyStrip e.1) with
        | some m => if m ≠ [] && !st.1.contains m then addCountry st m else st
        | none => st
      else st)
    st

/-- Canonical-name/alpha-code table scan (threat_intel.py:501-510).  The
Python `a or b` on `_ALPHA_TO_NAME.get(...)` falls through to
`pycountry.countries.get(alpha_2=alpha).name` when the lookup is missing
or empty, and a failure there (`.name` on `None`) skips the entry. -/
def namePass (pc : PyCountry) (textLower : Str) (st : CState) : CState :=
  pc.nameToAlpha.foldl
    (fun st p =>
      if wordSearch p.1 textLower then
        match
          (match lookupStr pc.alphaToName (upperStr p.2) with
           | some v => if v ≠ [] then some v else pc.alpha2 p.2
           | none => pc.alpha2 p.2) with
        | some canonical => if !st.1.contains canonical then addCountry st canonical else st
        | none => st
      else st)
    st

/-- Native-language alias scan (threat_intel.py:511-514). -/
def nativePass (textLower : Str) (st : CState) : CState :=
  NATIVE_ALIAS_TO_EN.foldl
    (fun st p =>
      if wordSearch p.1 textLower && !st.1.contains p.2 then addCountry st p.2 else st)
    st

/-- Common alias/abbreviation scan (threat_intel.py:515-518). -/
def aliasPass (textLower : Str) (st : CState) : CState :=
  ALIASES.foldl
    (fun st p =>
      if wordSearch p.1 textLower && !st.1.contains p.2 then addCountry st p.2 else st)
    st

/-- Last dot-separated segment: `(ext.suffix or "").split(".")[-1]`. -/
def lastSeg (s : Str) : Str := (s.reverse.takeWhile (fun c => c != '.')).reverse

/-- TLD-inference pass (threat_intel.py:519-529). -/
def tldPass (env : Env) (url : Option Str) (st : CState) : CState :=
  match url with
  | none => st
  | some u =>
    if u = [] then st
    else
      let sfx := lastSeg (env.tldSuffix u)
      match env.pyc with
      | some pc =>
        if sfx ≠ [] && sfx.length = 2 then
          match pc.alpha2 (upperStr sfx) with
          | some nm => if !st.1.contains nm then addCountry st nm else st
          | none => st
        else st
      | none => st

/-- Model of `detect_countries` (threat_intel.py:484-530). -/
def detect_countries (env : Env) (text : Str) (url : Option Str) : List Str :=
  if text = [] then []
  else
    let st1 :=
      match env.spacyEnts with
      | some ents => nerPass env.pyc (ents text) ([], [])
      | none => ([], [])
    let tl := lowerStr text
    let st2 :=
      match env.pyc with
      | some pc => namePass pc tl st1
      | none => st1
    (tldPass env url (aliasPass tl (nativePass tl st2))).2

/-! ### IPv4 extraction (threat_intel.py:581-583) and the GeoIP merge -/

/-- Candidate splits for a greedy-with-backtracking `\d{1,3}`:
longest first. -/
def octetCands (s : Str) : List (Str × Str) :=
  let r := (s.takeWhile isDigitChar).length
  [3, 2, 1].filterMap (fun n => if n ≤ r then some (s.take n, s.drop n) else none)

/-- Trailing `\b` after a digit: next character absent or non-word. -/
def ipTailOk (s : Str) : Bool :=
  match s with
  | [] => true
  | c :: _ => !isWordChar c

/-- Match `(?:\d{1,3}\.){3}\d{1,3}\b` at the current position. -/
def ipAt (s : Str) : Option (Str × Str) :=
  (octetCands s).findSome? fun p1 =>
    match p1.2 with
    | '.' :: r1 =>
      (octetCands r1).findSome? fun p2 =>
        match p2.2 with
        | '.' :: r2 =>
          (octetCands r2).findSome? fun p3 =>
            match p3.2 with
            | '.' :: r3 =>
              (octetCands r3).findSome? fun p4 =>
                if ipTailOk p4.2 then
                  some (p1.1 ++ '.' :: p2.1 ++ '.' :: p3.1 ++ '.' :: p4.1, p4.2)
                else none
            | _ => none
        | _ => none
    | _ => none

/-- The `re.findall` scan: leftmost matches, non-overlapping, resuming right
after each match.  `fuel` (instantiated with `text.length + 1`) only makes
the recursion structural; every step consumes at least one character. -/
def extractIpsAux : Nat → Option Char → Str → List Str
  | 0, _, _ => []
  | fuel + 1, prev, s =>
    match (if wordBoundary prev s.head? then ipAt s else none) with
    | some p => p.1 :: extractIpsAux fuel (some (p.1.getLastD '0')) p.2
    | none =>
      match s with
      | [] => []
      | c :: t => extractIpsAux fuel (some c) t

/-- Model of `extract_ips` (threat_intel.py:581-583). -/
def extract_ips (text : Str) : List Str := extractIpsAux (text.length + 1) none text

def digitsToNat (s : Str) : Nat := s.foldl (fun acc c => 10 * acc + (c.toNat - 48)) 0

/-- Would `ipaddress.ip_address` accept this dotted quad (octets ≤ 255, no
leading zeros)?  On acceptance `str(ip_obj)` equals the input, which is
what `GEOIP.resolve` receives. -/
def validIPv4 (s : Str) : Bool :=
  let parts := s.splitOn '.'
  parts.length = 4 &&
    parts.all (fun o =>
      (!o.isEmpty) && o.length ≤ 3 && o.all isDigitChar &&
        (o.length = 1 || o.headD '0' != '0') && digitsToNat o ≤ 255)

/-- The MaxMind merge loop inside `poll_feed` (threat_intel.py:602-610):
invalid IPs and failed lookups are skipped, resolved names are appended
when truthy and not already present (exact-string membership). -/
def geoMerge (env : Env) (blob : Str) (countries : List Str) : List Str :=
  (extract_ips blob).foldl
    (fun cs ip =>
      if validIPv4 ip then
        match env.geoResolve ip with
        | some gc => if gc ≠ [] && !cs.contains gc then cs ++ [gc] else cs
        | none => cs
      else cs)
    countries

/-! ### Feed polling (threat_intel.py:586-622) -/

structure Entry where
  link : Option Str
  title : Str
  published : Option Str
  updated : Option Str
  summary : Str

structure Item where
  published_utc : Int
  source : Str
  title : Str
  url : Option Str
  ttp_desc : List Str
  threat_actor : String
  affected_countries : List Str
deriving DecidableEq

/-- Model of `e.get("published") or e.get("updated")` (empty string is falsy). -/
def firstDate (e : Entry) : Option Str :=
  match e.published with
  | some s => if s = [] then e.updated else some s
  | none => e.updated

/-- Model of `parse_when` (threat_intel.py:402-411): `None`/empty dates and parser
failures give `none`; a success is the UTC-naive timestamp (modelled as an
integer, with `dateutil` parsing + timezone normalization in the
environment). -/
def parseWhen (env : Env) (d : Option Str) : Option Int :=
  match d with
  | none => none
  | some s => if s = [] then none else env.dateParse s

/-- Body of the entry loop of `poll_feed`: `none` exactly when the entry is
skipped (no parseable timestamp, or older than `since`). -/
def processEntry (env : Env) (since : Int) (e : Entry) : Option Item :=
  let link := e.link
  let title := pyStrip e.title
  match parseWhen env (firstDate e) with
  | none => none
  | some published =>
    if published < since then none
    else
      let summary := env.soupText e.summary
      let fullText :=
        match link with
        | some l => if l = [] then [] else env.fetchArticle l
        | none => []
      let blob := title ++ '\n' :: summary ++ '\n' :: fullText
      some { published_utc := published,
             source := (match link with | some l => env.domain l | none => []),
             title := title,
             url := link,
             ttp_desc := classify env.research blob,
             threat_actor := detect_actor blob,
             affected_countries := geoMerge env blob (detect_countries env blob link) }

/-- Model of `poll_feed` (threat_intel.py:586-622). -/
def poll_feed (env : Env) (since : Int) (entries : List Entry) : List Item :=
  entries.filterMap (processEntry env since)

/-! ### Aggregation (threat_intel.py:555-579 and 625-688) -/

/-- Dedup loop of `merge_listlike` (threat_intel.py:566-579): strip each
item, drop empties, keep the first item per normalized key. -/
def mergeDedup (seen : List Str) : List Str → List Str
  | [] => []
  | x :: xs =>
    let s := pyStrip x
    if s = [] then mergeDedup seen xs
    else
      let k := normalizeText s
      if seen.contains k then mergeDedup seen xs
      else s :: mergeDedup (k :: seen) xs

/-- Model of `merge_listlike` (threat_intel.py:555-579) on a series of list cells
(the only cell shape the pipeline produces; the scalar/NaN branches of the
Python function are unreachable here): concatenate, then dedup. -/
def merge_listlike (cells : List (List Str)) : List Str := mergeDedup [] cells.flatten

/-- Group key of the `groupby(['url', 'title'])` (threat_intel.py:652);
pandas drops rows whose `url` is missing from the grouping. -/
def aggKey? (r : Item) : Option (Str × Str) := r.url.map (fun u => (u, r.title))

def groupOf (records : List Item) (k : Str × Str) : List Item :=
  records.filter (fun r => r.url == some k.1 && r.title == k.2)

/-- The merged row for one `(url, title)` group: `'first'` for
`published_utc` / `source` / `threat_actor`, `merge_listlike` for the list
columns (threat_intel.py:652-658). -/
def rowOf (records : List Item) (k : Str × Str) : Item :=
  let grp := groupOf records k
  { published_utc := (grp.map (fun r => r.published_utc)).headD 0,
    source := (grp.map (fun r => r.source)).headD [],
    title := k.2,
    url := some k.1,
    ttp_desc := merge_listlike (grp.map (fun r => r.ttp_desc)),
    threat_actor := (grp.map (fun r => r.threat_actor)).headD "",
    affected_countries := merge_listlike (grp.map (fun r => r.affected_countries)) }

/-- Lexicographic Python `≤` on `(url, title)` tuples (pandas sorts group
keys ascending). -/
def keyLe (a b : Str × Str) : Bool :=
  if a.1 == b.1 then leStr a.2 b.2 else leStr a.1 b.1

/-- The `groupby(['url','title'], as_index=False).agg(...)` step: one row
per distinct key, keys sorted ascending. -/
def aggregate (records : List Item) : List Item :=
  (List.insertionSort (fun a b => keyLe a b = true)
      ((records.filterMap aggKey?).dedup)).map (rowOf records)

/-- Model of `pad_lists` (threat_intel.py:539-553) on list cells: right-pad every
row with empty strings to the longest length (`max(..., default=0)`). -/
def pad_lists (cells : List (List Str)) : List (List Str) × Nat :=
  let maxLen := (cells.map List.length).foldl max 0
  (cells.map (fun l => l ++ List.replicate (maxLen - l.length) ([] : Str)), maxLen)

/-- The column-expansion step of `main` (threat_intel.py:660-674): pivot a
list column into `max_len` cells per row, or a single empty-string cell
per row when no row has any value. -/
def expandColumns (cells : List (List Str)) : List (List Str) :=
  let p := pad_lists cells
  if p.2 = 0 then cells.map (fun _ => [([] : Str)]) else p.1

/-- Un-pivot: read the cells left-to-right and drop the empty tail. -/
def dropTrailingEmpties (row : List Str) : List Str :=
  (row.reverse.dropWhile (fun s => s == ([] : Str))).reverse

/-- Python `needle in hay` substring test (case-sensitive). -/
def strContains : Str → Str → Bool
  | hay, needle =>
    needle.isPrefixOf hay ||
    match hay with
    | [] => false
    | _ :: t => strContains t needle

/-- One cell of the human-attack mask (threat_intel.py:677-681). -/
def humanCell (x : Str) : Bool :=
  strContains x "Phishing".data || strContains x "Spearphishing".data

/-- Model of `any("Phishing" in str(x) or "Spearphishing" in str(x) for x in row)`
over the `ttp_desc_*` cells of a row. -/
def humanRow (row : List Str) : Bool := row.any humanCell

/-- The human/general partition (threat_intel.py:677-682): rows of the
wide table, represented by their `ttp_desc_*` cells. -/
def splitHuman (rows : List (List Str)) : List (List Str) × List (List Str) :=
  (rows.filter humanRow, rows.filter (fun r => !humanRow r))

/-- The cross-feed URL dedup of `main` (threat_intel.py:629-637): keep an
item only if its `url` was not seen before, in arrival order. -/
def dedupByUrl (seen : List (Option Str)) : List Item → List Item
  | [] => []
  | i :: is =>
    if seen.contains i.url then dedupByUrl seen is
    else i :: dedupByUrl (i.url :: seen) is

/-- The list `all_items` as accumulated by `main` over the per-feed results. -/
def collectItems (feedsItems : List (List Item)) : List Item :=
  dedupByUrl [] feedsItems.flatten

/-! ## Shared helper lemmas -/

theorem strContains_iff_infix (needle hay : Str) :
    strContains hay needle = true ↔ needle <:+: hay := by
  induction hay with
  | nil =>
    simp [strContains, List.isPrefixOf_iff_prefix]
  | cons a t ih =>
    rw [strContains]
    simp only [Bool.or_eq_true, List.isPrefixOf_iff_prefix, ih, List.infix_cons_iff]

theorem humanRow_iff (row : List Str) :
    humanRow row = true ↔
      ∃ x ∈ row, ("Phishing".data <:+: x ∨ "Spearphishing".data <:+: x) := by
  simp [humanRow, List.any_eq_true, humanCell, Bool.or_eq_true, strContains_iff_infix]

theorem length_filter_partition {α : Type} (p : α → Bool) (l : List α) :
    (l.filter p).length + (l.filter (fun x => !p x)).length = l.length := by
  induction l with
  | nil => simp
  | cons a t ih =>
    by_cases h : p a = true <;> simp [List.filter_cons, h, ← ih] <;> omega

/-! ## Claims -/

/-- C4: a row of the wide table lands in the human-attack partition iff
some `ttp_desc_*` cell contains the substring `"Phishing"` or
`"Spearphishing"` (case-sensitive); all other rows land in the general
partition, and the two partitions are disjoint and jointly exhaust the
table (with multiplicity). -/
theorem c4_human_general_partition :
    ∀ (rows : List (List Str)) (r : List Str),
      (r ∈ (splitHuman rows).1 ↔
        r ∈ rows ∧ ∃ x ∈ r, ("Phishing".data <:+: x ∨ "Spearphishing".data <:+: x)) ∧
      (r ∈ (splitHuman rows).2 ↔
        r ∈ rows ∧ ¬ ∃ x ∈ r, ("Phishing".data <:+: x ∨ "Spearphishing".data <:+: x)) ∧
      ¬ (r ∈ (splitHuman rows).1 ∧ r ∈ (splitHuman rows).2) ∧
      (splitHuman rows).1.length + (splitHuman rows).2.length = rows.length := by
  intro rows r
  have h1 : r ∈ (splitHuman rows).1 ↔
      r ∈ rows ∧ ∃ x ∈ r, ("Phishing".data <:+: x ∨ "Spearphishing".data <:+: x) := by
    rw [splitHuman]
    simp only [List.mem_filter, humanRow_iff]
  have h2 : r ∈ (splitHuman rows).2 ↔
      r ∈ rows ∧ ¬ ∃ x ∈ r, ("Phishing".data <:+: x ∨ "Spearphishing".data <:+: x) := by
    rw [splitHuman]
    simp only [List.mem_filter, Bool.not_eq_true', ← humanRow_iff]
    simp [Bool.not_eq_true]
  refine ⟨h1, h2, ?_, length_filter_partition humanRow rows⟩
  rintro ⟨ha, hb⟩
  exact (h2.mp hb).2 (h1.mp ha).2

/-- C4 witness: on a concrete two-row table the partition sizes add up,
via `c4_human_general_partition`. -/
theorem c4_witness :
    (splitHuman [["Phishing (T1566.002)".data], ["Malware (TA0002/TA0003)".data]]).1.length +
      (splitHuman [["Phishing (T1566.002)".data], ["Malware (TA0002/TA0003)".data]]).2.length = 2 :=
  (c4_human_general_partition
    [["Phishing (T1566.002)".data], ["Malware (TA0002/TA0003)".data]] []).2.2.2

theorem contains_iff_mem {α : Type} [BEq α] [LawfulBEq α] (l : List α) (a : α) :
    l.contains a = true ↔ a ∈ l := by
  simp [List.contains, List.elem_iff]

theorem dedupByUrl_nodup_unseen (xs : List Item) : ∀ seen : List (Option Str),
    ((dedupByUrl seen xs).map (fun i => i.url)).Nodup ∧
    ∀ y ∈ dedupByUrl seen xs, y.url ∉ seen := by
  induction xs with
  | nil => intro seen; simp [dedupByUrl]
  | cons i is ih =>
    intro seen
    rw [dedupByUrl]
    by_cases h : seen.contains i.url = true
    · rw [if_pos h]
      refine ⟨(ih seen).1, (ih seen).2⟩
    · rw [if_neg h]
      have ih' := ih (i.url :: seen)
      constructor
      · simp only [List.map_cons, List.nodup_cons]
        refine ⟨?_, ih'.1⟩
        intro hmem
        rcases List.mem_map.mp hmem with ⟨y, hy, hyu⟩
        exact (ih'.2 y hy) (hyu ▸ List.mem_cons_self _ _)
      · intro y hy
        rcases List.mem_cons.mp hy with rfl | hy'
        · exact fun hc => h ((contains_iff_mem seen y.url).mpr hc)
        · exact fun hc => (ih'.2 y hy') (List.mem_cons_of_mem _ hc)

theorem dedupByUrl_sublist (xs : List Item) : ∀ seen, (dedupByUrl seen xs).Sublist xs := by
  induction xs with
  | nil => intro seen; simp [dedupByUrl]
  | cons i is ih =>
    intro seen
    rw [dedupByUrl]
    by_cases h : seen.contains i.url = true
    · rw [if_pos h]
      exact (ih seen).cons i
    · rw [if_neg h]
      exact (ih (i.url :: seen)).cons₂ i

theorem dedupByUrl_covers (xs : List Item) : ∀ seen x, x ∈ xs → x.url ∉ seen →
    ∃ y ∈ dedupByUrl seen xs, y.url = x.url := by
  induction xs with
  | nil => intro seen x hx; exact absurd hx (List.not_mem_nil x)
  | cons i is ih =>
    intro seen x hx hus
    rw [dedupByUrl]
    by_cases h : seen.contains i.url = true
    · rw [if_pos h]
      rcases List.mem_cons.mp hx with rfl | hx'
      · exact absurd ((contains_iff_mem seen x.url).mp h) hus
      · exact ih seen x hx' hus
    · rw [if_neg h]
      rcases List.mem_cons.mp hx with rfl | hx'
      · exact ⟨x, List.mem_cons_self _ _, rfl⟩
      · by_cases hu : x.url = i.url
        · exact ⟨i, List.mem_cons_self _ _, hu.symm⟩
        · have : x.url ∉ (i.url :: seen) := by
            intro hc
            rcases List.mem_cons.mp hc with hc1 | hc2
            · exact hu hc1
            · exact hus hc2
          rcases ih (i.url :: seen) x hx' this with ⟨y, hy, hyu⟩
          exact ⟨y, List.mem_cons_of_mem _ hy, hyu⟩

theorem dedupByUrl_first (xs : List Item) : ∀ seen y, y ∈ dedupByUrl seen xs →
    xs.find? (fun z => z.url == y.url) = some y := by
  induction xs with
  | nil => intro seen y hy; simp [dedupByUrl] at hy
  | cons i is ih =>
    intro seen y hy
    rw [dedupByUrl] at hy
    by_cases h : seen.contains i.url = true
    · rw [if_pos h] at hy
      have hunseen := (dedupByUrl_nodup_unseen is seen).2 y hy
      have hne : (i.url == y.url) = false := by
        rw [beq_eq_false_iff_ne]
        intro hc
        exact hunseen (hc ▸ (contains_iff_mem seen i.url).mp h)
      rw [List.find?_cons_of_neg _ (by simp [hne]), ih seen y hy]
    · rw [if_neg h] at hy
      rcases List.mem_cons.mp hy with rfl | hy'
      · rw [List.find?_cons_of_pos _ (by simp)]
      · have hunseen := (dedupByUrl_nodup_unseen is (i.url :: seen)).2 y hy'
        have hne : (i.url == y.url) = false := by
          rw [beq_eq_false_iff_ne]
          intro hc
          exact hunseen (hc ▸ List.mem_cons_self _ _)
        rw [List.find?_cons_of_neg _ (by simp [hne]), ih (i.url :: seen) y hy']

theorem nodup_urls_group_le_one (items : List Item)
    (h : ((items.map (fun i => i.url)).Nodup)) (u t : Str) :
    (groupOf items (u, t)).length ≤ 1 := by
  have hsub : ((groupOf items (u, t)).map (fun i => i.url)).Nodup :=
    (List.Sublist.map (fun i => i.url) (List.filter_sublist items)).nodup h
  have hall : ∀ x ∈ groupOf items (u, t), x.url = some u := by
    intro x hx
    have := (List.mem_filter.mp hx).2
    simp only [Bool.and_eq_true, beq_iff_eq] at this
    exact this.1
  match hg : groupOf items (u, t) with
  | [] => simp
  | [x] => simp
  | x :: y :: tl =>
    exfalso
    rw [hg] at hsub hall
    have hx := hall x (List.mem_cons_self _ _)
    have hy := hall y (List.mem_cons_of_mem _ (List.mem_cons_self _ _))
    simp only [List.map_cons, List.nodup_cons] at hsub
    exact hsub.1 (List.mem_map.mpr ⟨y, List.mem_cons_self _ _, by rw [hy, hx]⟩)

/-- C9: `main`'s cross-feed accumulation drops every later item whose URL
was already seen — regardless of title — so the list handed to the
`(url, title)` aggregation has pairwise-distinct URLs, keeps exactly the
first-seen item per URL, and every aggregation group has at most one
member (the merge step never actually combines two records of one run). -/
theorem c9_url_dedup_before_merge :
    ∀ feedsItems : List (List Item),
      ((collectItems feedsItems).map (fun i => i.url)).Nodup ∧
      (collectItems feedsItems).Sublist feedsItems.flatten ∧
      (∀ x ∈ feedsItems.flatten, ∃ y ∈ collectItems feedsItems, y.url = x.url) ∧
      (∀ y ∈ collectItems feedsItems,
        feedsItems.flatten.find? (fun z => z.url == y.url) = some y) ∧
      (∀ u t, (groupOf (collectItems feedsItems) (u, t)).length ≤ 1) := by
  intro feedsItems
  refine ⟨(dedupByUrl_nodup_unseen _ []).1, dedupByUrl_sublist _ [], ?_, ?_, ?_⟩
  · intro x hx
    exact dedupByUrl_covers _ [] x hx (List.not_mem_nil _)
  · intro y hy
    exact dedupByUrl_first _ [] y hy
  · intro u t
    exact nodup_urls_group_le_one _ (dedupByUrl_nodup_unseen _ []).1 u t

def c9ItemA : Item :=
  { published_utc := 0, source := [], title := "a".data, url := some "u".data,
    ttp_desc := ["Phishing (T1566.002)".data], threat_actor := "",
    affected_countries := ["Sweden".data] }

def c9ItemB : Item :=
  { published_utc := 1, source := [], title := "b".data, url := some "u".data,
    ttp_desc := ["Whaling (T1566.001)".data], threat_actor := "",
    affected_countries := ["France".data] }

/-- C9 witness: two items with the same URL but different titles, coming
from two feeds — via `c9_url_dedup_before_merge` the aggregation group of
the second item's key holds at most one record. -/
theorem c9_witness :
    (groupOf (collectItems [[c9ItemA], [c9ItemB]]) ("u".data, "b".data)).length ≤ 1 :=
  (c9_url_dedup_before_merge [[c9ItemA], [c9ItemB]]).2.2.2.2 "u".data "b".data

theorem findActor_eq_find? (table : List (String × List (List RTok))) (l : Str) :
    findActor table l =
      ((table.find? (fun a => a.2.any (fun p => searchPat p l))).map
        (fun a => a.1)).getD "" := by
  induction table with
  | nil => rfl
  | cons a rest ih =>
    obtain ⟨name, pats⟩ := a
    rw [findActor]
    by_cases h : pats.any (fun p => searchPat p l) = true
    · rw [if_pos h,
        @List.find?_cons_of_pos _ (fun a => a.2.any (fun p => searchPat p l)) (name, pats) rest h]
      rfl
    · rw [if_neg h,
        @List.find?_cons_of_neg _ (fun a => a.2.any (fun p => searchPat p l)) (name, pats) rest h,
        ih]

theorem find?_eq_get_of_first {α : Type} (p : α → Bool) :
    ∀ (l : List α) (i : Nat) (hi : i < l.length),
      p (l.get ⟨i, hi⟩) = true →
      (∀ k (hk : k < i), p (l.get ⟨k, Nat.lt_trans hk hi⟩) = false) →
      l.find? p = some (l.get ⟨i, hi⟩) := by
  intro l
  induction l with
  | nil => intro i hi; exact absurd hi (by simp)
  | cons a t ih =>
    intro i hi hp hfirst
    match i with
    | 0 => exact List.find?_cons_of_pos _ hp
    | j + 1 =>
      have h0 : p a = false := hfirst 0 (Nat.succ_pos j)
      rw [List.find?_cons_of_neg _ (by simp [h0])]
      exact ih j (by simpa using hi) hp
        (fun k hk => hfirst (k + 1) (Nat.succ_lt_succ hk))

/-- C6: `detect_actor` returns the label of the first actor, in
`ACTOR_PATTERNS` declaration order, one of whose patterns matches the
lowered text, and `""` when none matches; in particular, when the actors
at positions `i < j` both match and no earlier actor does, the result is
deterministically actor `i`'s label. -/
theorem c6_actor_first_match :
    (∀ text : Str,
      detect_actor text =
        ((ACTOR_PATTERNS.find?
            (fun a => a.2.any (fun p => searchPat p (lowerStr text)))).map
          (fun a => a.1)).getD "") ∧
    (∀ (text : Str) (i j : Nat) (hi : i < ACTOR_PATTERNS.length)
        (hj : j < ACTOR_PATTERNS.length), i < j →
      (ACTOR_PATTERNS.get ⟨i, hi⟩).2.any (fun p => searchPat p (lowerStr text)) = true →
      (ACTOR_PATTERNS.get ⟨j, hj⟩).2.any (fun p => searchPat p (lowerStr text)) = true →
      (∀ k (hk : k < i),
        (ACTOR_PATTERNS.get ⟨k, Nat.lt_trans hk hi⟩).2.any
          (fun p => searchPat p (lowerStr text)) = false) →
      detect_actor text = (ACTOR_PATTERNS.get ⟨i, hi⟩).1) := by
  constructor
  · intro text
    exact findActor_eq_find? ACTOR_PATTERNS (lowerStr text)
  · intro text i j hi hj _ hpi _ hfirst
    rw [detect_actor, findActor_eq_find? ACTOR_PATTERNS (lowerStr text),
      find?_eq_get_of_first _ ACTOR_PATTERNS i hi hpi hfirst]
    rfl

/-- C6 witness: a text matching both APT28's and APT29's patterns gets the
earlier-declared APT28 label, via `c6_actor_first_match`. -/
theorem c6_witness :
    detect_actor "apt28 and apt29".data = "APT28 (Fancy Bear / Sofacy)" := by
  have h := c6_actor_first_match.2 "apt28 and apt29".data 0 1
    (by decide) (by decide) (by decide) (by decide) (by decide)
    (fun k hk => absurd hk (Nat.not_lt_zero k))
  exact h

theorem foldl_max_init_le (l : List Nat) (n : Nat) : n ≤ l.foldl max n := by
  induction l generalizing n with
  | nil => simp
  | cons a t ih => exact le_trans (le_max_left n a) (ih (max n a))

theorem le_foldl_max_of_mem (l : List Nat) (n : Nat) : ∀ x ∈ l, x ≤ l.foldl max n := by
  induction l generalizing n with
  | nil => simp
  | cons a t ih =>
    intro x hx
    rcases List.mem_cons.mp hx with h | h
    · simp only [List.foldl_cons]
      rw [h]
      exact le_trans (le_max_right n a) (foldl_max_init_le t (max n a))
    · exact ih (max n a) x h

theorem foldl_max_eq_or_mem (l : List Nat) (n : Nat) :
    l.foldl max n = n ∨ l.foldl max n ∈ l := by
  induction l generalizing n with
  | nil => simp
  | cons a t ih =>
    rcases ih (max n a) with h | h
    · rcases Nat.le_total n a with h2 | h2
      · right
        simp only [List.foldl_cons]
        rw [h, Nat.max_eq_right h2]
        exact List.mem_cons_self a t
      · left
        simp only [List.foldl_cons]
        rw [h]
        omega
    · right
      simp only [List.foldl_cons]
      exact List.mem_cons_of_mem a h

theorem mergeDedup_ne_nil (xs : List Str) : ∀ seen y, y ∈ mergeDedup seen xs → y ≠ [] := by
  induction xs with
  | nil => intro seen y hy; simp [mergeDedup] at hy
  | cons x t ih =>
    intro seen y hy
    rw [mergeDedup] at hy
    by_cases h1 : pyStrip x = []
    · rw [if_pos h1] at hy
      exact ih seen y hy
    · rw [if_neg h1] at hy
      by_cases h2 : seen.contains (normalizeText (pyStrip x)) = true
      · rw [if_pos h2] at hy
        exact ih seen y hy
      · rw [if_neg h2] at hy
        rcases List.mem_cons.mp hy with rfl | hy'
        · exact h1
        · exact ih _ y hy'

theorem dropWhile_replicate_empty_append (k : Nat) (t : List Str) :
    (List.replicate k ([] : Str) ++ t).dropWhile (fun s => s == []) =
      t.dropWhile (fun s => s == []) := by
  induction k with
  | zero => simp
  | succ n ih =>
    rw [List.replicate_succ, List.cons_append, List.dropWhile_cons_of_pos (by simp)]
    exact ih

theorem dropWhile_eq_self_of_all {α : Type} (p : α → Bool) (l : List α)
    (h : ∀ x ∈ l, p x = false) : l.dropWhile p = l := by
  cases l with
  | nil => rfl
  | cons a t =>
    rw [List.dropWhile_cons, h a (List.mem_cons_self a t)]
    simp

theorem dropTrailing_pad (l : List Str) (k : Nat) (h : ∀ x ∈ l, x ≠ []) :
    dropTrailingEmpties (l ++ List.replicate k ([] : Str)) = l := by
  rw [dropTrailingEmpties, List.reverse_append, List.reverse_replicate,
    dropWhile_replicate_empty_append,
    dropWhile_eq_self_of_all _ _ (by
      intro x hx
      have := h x (List.mem_reverse.mp hx)
      simpa [beq_eq_false_iff_ne] using this),
    List.reverse_reverse]

theorem forall₂_map_left {α β : Type} (R : β → α → Prop) (f : α → β) (l : List α)
    (h : ∀ x ∈ l, R (f x) x) : List.Forall₂ R (l.map f) l := by
  induction l with
  | nil => simp
  | cons a t ih =>
    simp only [List.map_cons, List.forall₂_cons]
    exact ⟨h a (List.mem_cons_self a t), ih (fun x hx => h x (List.mem_cons_of_mem a hx))⟩

/-- C3: pivoting the per-row lists into `country_1..country_N` /
`ttp_desc_1..ttp_desc_M` cells and un-pivoting by dropping trailing empty
cells reconstructs exactly the Merger's list for every row; `N` is the
longest list length over all rows (each padded row has that width), and
when no row has any value a single column of empty strings is still
emitted. -/
theorem c3_wide_pivot_roundtrip :
    ∀ cells : List (List Str),
      (∀ l ∈ cells, ∃ src, l = merge_listlike src) →
      List.Forall₂ (fun o c => dropTrailingEmpties o = c) (expandColumns cells) cells ∧
      (∀ row ∈ expandColumns cells,
        row.length = max 1 ((cells.map List.length).foldl max 0)) ∧
      (∀ l ∈ cells, l.length ≤ (cells.map List.length).foldl max 0) ∧
      ((cells.map List.length).foldl max 0 = 0 ∨
        ∃ l ∈ cells, l.length = (cells.map List.length).foldl max 0) ∧
      ((cells.map List.length).foldl max 0 = 0 →
        expandColumns cells = cells.map (fun _ => [([] : Str)])) := by
  intro cells hsrc
  have hne : ∀ l ∈ cells, ∀ x ∈ l, x ≠ [] := by
    intro l hl x hx
    rcases hsrc l hl with ⟨src, rfl⟩
    exact mergeDedup_ne_nil _ [] x hx
  have hle : ∀ l ∈ cells, l.length ≤ (cells.map List.length).foldl max 0 := by
    intro l hl
    exact le_foldl_max_of_mem _ 0 l.length (List.mem_map.mpr ⟨l, hl, rfl⟩)
  have hattain : (cells.map List.length).foldl max 0 = 0 ∨
      ∃ l ∈ cells, l.length = (cells.map List.length).foldl max 0 := by
    rcases foldl_max_eq_or_mem (cells.map List.length) 0 with h | h
    · exact Or.inl h
    · rcases List.mem_map.mp h with ⟨l, hl, hll⟩
      exact Or.inr ⟨l, hl, hll⟩
  by_cases hm : (cells.map List.length).foldl max 0 = 0
  · have hcells : ∀ l ∈ cells, l = [] := by
      intro l hl
      have := hle l hl
      rw [hm] at this
      exact List.length_eq_zero.mp (Nat.le_zero.mp this)
    have hexp : expandColumns cells = cells.map (fun _ => [([] : Str)]) := by
      rw [expandColumns]
      simp only [pad_lists]
      rw [if_pos hm]
    refine ⟨?_, ?_, hle, hattain, fun _ => hexp⟩
    · rw [hexp]
      refine forall₂_map_left _ _ _ ?_
      intro l hl
      rw [hcells l hl]
      rfl
    · intro row hrow
      rw [hexp] at hrow
      rcases List.mem_map.mp hrow with ⟨l, _, rfl⟩
      simp [hm]
  · have hexp : expandColumns cells =
        cells.map (fun l =>
          l ++ List.replicate ((cells.map List.length).foldl max 0 - l.length) ([] : Str)) := by
      rw [expandColumns]
      simp only [pad_lists]
      rw [if_neg hm]
    refine ⟨?_, ?_, hle, hattain, fun h => absurd h hm⟩
    · rw [hexp]
      refine forall₂_map_left _ _ _ ?_
      intro l hl
      exact dropTrailing_pad l _ (hne l hl)
    · intro row hrow
      rw [hexp] at hrow
      rcases List.mem_map.mp hrow with ⟨l, hl, rfl⟩
      have := hle l hl
      rw [List.length_append, List.length_replicate,
        Nat.max_eq_right (Nat.one_le_iff_ne_zero.mpr hm)]
      omega

/-- C3 witness: a concrete two-row table round-trips, via
`c3_wide_pivot_roundtrip`. -/
theorem c3_witness :
    List.Forall₂ (fun o c => dropTrailingEmpties o = c)
      (expandColumns [["a".data], []]) [["a".data], []] :=
  (c3_wide_pivot_roundtrip [["a".data], []] (by
    intro l hl
    rcases List.mem_cons.mp hl with rfl | hl'
    · exact ⟨[["a".data]], by decide⟩
    · rcases List.mem_cons.mp hl' with rfl | hl''
      · exact ⟨[], by decide⟩
      · exact absurd hl'' (List.not_mem_nil l))).1

theorem mergeDedup_pairwise (xs : List Str) : ∀ seen,
    List.Pairwise (fun a b => normalizeText a ≠ normalizeText b) (mergeDedup seen xs) ∧
    ∀ y ∈ mergeDedup seen xs, normalizeText y ∉ seen := by
  induction xs with
  | nil => intro seen; simp [mergeDedup]
  | cons x tl ih =>
    intro seen
    rw [mergeDedup]
    by_cases h1 : pyStrip x = []
    · rw [if_pos h1]
      exact ih seen
    · rw [if_neg h1]
      by_cases h2 : seen.contains (normalizeText (pyStrip x)) = true
      · rw [if_pos h2]
        exact ih seen
      · rw [if_neg h2]
        have ih' := ih (normalizeText (pyStrip x) :: seen)
        constructor
        · refine List.Pairwise.cons ?_ ih'.1
          intro b hb
          intro hc
          exact (ih'.2 b hb) (hc ▸ List.mem_cons_self _ _)
        · intro y hy
          rcases List.mem_cons.mp hy with rfl | hy'
          · exact fun hc => h2 ((contains_iff_mem _ _).mpr hc)
          · exact fun hc => (ih'.2 y hy') (List.mem_cons_of_mem _ hc)

theorem mergeDedup_sublist (xs : List Str) : ∀ seen,
    (mergeDedup seen xs).Sublist (xs.map pyStrip) := by
  induction xs with
  | nil => intro seen; simp [mergeDedup]
  | cons x tl ih =>
    intro seen
    rw [mergeDedup]
    by_cases h1 : pyStrip x = []
    · rw [if_pos h1]
      exact (ih seen).cons _
    · rw [if_neg h1]
      by_cases h2 : seen.contains (normalizeText (pyStrip x)) = true
      · rw [if_pos h2]
        exact (ih seen).cons _
      · rw [if_neg h2]
        exact (ih _).cons₂ _

theorem mergeDedup_covers (xs : List Str) : ∀ seen x, x ∈ xs → pyStrip x ≠ [] →
    normalizeText (pyStrip x) ∉ seen →
    ∃ y ∈ mergeDedup seen xs, normalizeText y = normalizeText (pyStrip x) := by
  induction xs with
  | nil => intro seen x hx; exact absurd hx (List.not_mem_nil x)
  | cons x' tl ih =>
    intro seen x hx hne hns
    rw [mergeDedup]
    rcases List.mem_cons.mp hx with rfl | hx'
    · rw [if_neg hne, if_neg (fun hc => hns ((contains_iff_mem _ _).mp hc))]
      exact ⟨pyStrip x, List.mem_cons_self _ _, rfl⟩
    · by_cases h1 : pyStrip x' = []
      · rw [if_pos h1]
        exact ih seen x hx' hne hns
      · rw [if_neg h1]
        by_cases h2 : seen.contains (normalizeText (pyStrip x')) = true
        · rw [if_pos h2]
          exact ih seen x hx' hne hns
        · rw [if_neg h2]
          by_cases heq : normalizeText (pyStrip x) = normalizeText (pyStrip x')
          · exact ⟨pyStrip x', List.mem_cons_self _ _, heq.symm⟩
          · have : normalizeText (pyStrip x) ∉ normalizeText (pyStrip x') :: seen := by
              intro hc
              rcases List.mem_cons.mp hc with hc1 | hc2
              · exact heq hc1
              · exact hns hc2
            rcases ih _ x hx' hne this with ⟨y, hy, hyn⟩
            exact ⟨y, List.mem_cons_of_mem _ hy, hyn⟩

theorem head?_filter_eq_find? {α : Type} (p : α → Bool) (l : List α) :
    (l.filter p).head? = l.find? p := by
  induction l with
  | nil => rfl
  | cons a t ih =>
    by_cases h : p a = true
    · rw [List.filter_cons_of_pos h, List.find?_cons_of_pos _ h]
      rfl
    · rw [List.filter_cons_of_neg (by simpa using h), List.find?_cons_of_neg _ h, ih]

theorem filter_beq_singleton {α : Type} [BEq α] [LawfulBEq α] (l : List α) (k : α)
    (hnd : l.Nodup) (hk : k ∈ l) : l.filter (fun x => x == k) = [k] := by
  induction l with
  | nil => cases hk
  | cons a tl ih =>
    by_cases hak : a = k
    · subst hak
      rw [List.filter_cons_of_pos (by simp)]
      have hnil : tl.filter (fun x => x == a) = [] := by
        refine List.filter_eq_nil_iff.mpr ?_
        intro b hb
        have hne : b ≠ a := fun hc => (List.nodup_cons.mp hnd).1 (hc ▸ hb)
        simp [hne]
      rw [hnil]
    · have hk' : k ∈ tl := by
        rcases List.mem_cons.mp hk with h1 | h1
        · exact absurd h1.symm hak
        · exact h1
      have hna : (a == k) = false := beq_eq_false_iff_ne.mpr hak
      rw [List.filter_cons_of_neg (by simp [hna])]
      exact ih (List.nodup_cons.mp hnd).2 hk'

theorem rowOf_key_beq (records : List Item) (k' : Str × Str) (u t : Str) :
    ((rowOf records k').url == some u && (rowOf records k').title == t) =
      (k' == (u, t)) := by
  obtain ⟨a, b⟩ := k'
  have h1 : (rowOf records (a, b)).url = some a := rfl
  have h2 : (rowOf records (a, b)).title = b := rfl
  rw [h1, h2]
  by_cases hau : a = u
  · by_cases hbt : b = t
    · subst hau hbt
      simp
    · have : (b == t) = false := beq_eq_false_iff_ne.mpr hbt
      have hpair : ((a, b) == (u, t)) = false := by
        refine beq_eq_false_iff_ne.mpr ?_
        intro hc
        exact hbt (congrArg Prod.snd hc)
      simp [this, hpair]
  · have : (a == u) = false := beq_eq_false_iff_ne.mpr hau
    have hpair : ((a, b) == (u, t)) = false := by
      refine beq_eq_false_iff_ne.mpr ?_
      intro hc
      exact hau (congrArg Prod.fst hc)
    simp [this, hpair]

theorem aggregate_filter_key (records : List Item) (u t : Str)
    (h : (u, t) ∈ records.filterMap aggKey?) :
    (aggregate records).filter (fun r => r.url == some u && r.title == t) =
      [rowOf records (u, t)] := by
  rw [aggregate, List.filter_map]
  have hcong :
      List.filter
        ((fun r => r.url == some u && r.title == t) ∘ rowOf records)
        (List.insertionSort (fun a b => keyLe a b = true) (records.filterMap aggKey?).dedup) =
      List.filter (fun k' => k' == (u, t))
        (List.insertionSort (fun a b => keyLe a b = true) (records.filterMap aggKey?).dedup) :=
    List.filter_congr (fun k' _ => rowOf_key_beq records k' u t)
  rw [hcong, filter_beq_singleton _ _
    (((List.perm_insertionSort (fun a b => keyLe a b = true)
        (records.filterMap aggKey?).dedup).nodup_iff).mpr (List.nodup_dedup _))
    (((List.perm_insertionSort (fun a b => keyLe a b = true)
        (records.filterMap aggKey?).dedup).mem_iff).mpr (List.mem_dedup.mpr h))]
  rfl

/-- C2: aggregating records sharing a `(url, title)` key yields exactly one
output row; its `published_utc`/`source` come from the first-seen record of
the group, and its `techniques`/`countries` are `merge_listlike` of the
group's lists — a first-seen-ordered union with no two entries equal under
the text normalizer. -/
theorem c2_merge_same_key :
    ∀ (records : List Item) (u t : Str),
      (u, t) ∈ records.filterMap aggKey? →
      ((aggregate records).filter (fun r => r.url == some u && r.title == t) =
        [rowOf records (u, t)]) ∧
      (∃ r0, records.find? (fun r => r.url == some u && r.title == t) = some r0 ∧
        (rowOf records (u, t)).published_utc = r0.published_utc ∧
        (rowOf records (u, t)).source = r0.source ∧
        (rowOf records (u, t)).threat_actor = r0.threat_actor) ∧
      ((rowOf records (u, t)).ttp_desc =
        merge_listlike ((groupOf records (u, t)).map (fun r => r.ttp_desc))) ∧
      ((rowOf records (u, t)).affected_countries =
        merge_listlike ((groupOf records (u, t)).map (fun r => r.affected_countries))) ∧
      (List.Pairwise (fun a b => normalizeText a ≠ normalizeText b)
        (rowOf records (u, t)).ttp_desc ∧
       (rowOf records (u, t)).ttp_desc.Sublist
         ((((groupOf records (u, t)).map (fun r => r.ttp_desc)).flatten).map pyStrip) ∧
       (∀ s ∈ (((groupOf records (u, t)).map (fun r => r.ttp_desc)).flatten),
         pyStrip s ≠ [] →
         ∃ y ∈ (rowOf records (u, t)).ttp_desc,
           normalizeText y = normalizeText (pyStrip s))) ∧
      (List.Pairwise (fun a b => normalizeText a ≠ normalizeText b)
        (rowOf records (u, t)).affected_countries ∧
       (rowOf records (u, t)).affected_countries.Sublist
         ((((groupOf records (u, t)).map (fun r => r.affected_countries)).flatten).map pyStrip) ∧
       (∀ s ∈ (((groupOf records (u, t)).map (fun r => r.affected_countries)).flatten),
         pyStrip s ≠ [] →
         ∃ y ∈ (rowOf records (u, t)).affected_countries,
           normalizeText y = normalizeText (pyStrip s))) := by
  intro records u t h
  refine ⟨aggregate_filter_key records u t h, ?_, rfl, rfl, ?_, ?_⟩
  · rcases List.mem_filterMap.mp h with ⟨r, hr, hkey⟩
    rw [aggKey?] at hkey
    rcases Option.map_eq_some'.mp hkey with ⟨a, ha, hpair⟩
    have hau : a = u := congrArg Prod.fst hpair
    have ht : r.title = t := congrArg Prod.snd hpair
    have hu : r.url = some u := by rw [ha, hau]
    have hmem : r ∈ groupOf records (u, t) := by
      rw [groupOf, List.mem_filter]
      exact ⟨hr, by rw [hu, ht]; simp⟩
    have hge : groupOf records (u, t) ≠ [] := fun hc => by
      rw [hc] at hmem
      exact List.not_mem_nil r hmem
    match hg : groupOf records (u, t) with
    | [] => exact absurd hg hge
    | r0 :: rest =>
      refine ⟨r0, ?_, ?_, ?_, ?_⟩
      · rw [← head?_filter_eq_find?]
        have : List.filter (fun r => r.url == some u && r.title == t) records =
            groupOf records (u, t) := rfl
        rw [this, hg]
        rfl
      · rw [rowOf]
        simp only [hg, List.map_cons, List.headD_cons]
      · rw [rowOf]
        simp only [hg, List.map_cons, List.headD_cons]
      · rw [rowOf]
        simp only [hg, List.map_cons, List.headD_cons]
  · refine ⟨(mergeDedup_pairwise _ []).1, mergeDedup_sublist _ [], ?_⟩
    intro s hs hne
    exact mergeDedup_covers _ [] s hs hne (List.not_mem_nil _)
  · refine ⟨(mergeDedup_pairwise _ []).1, mergeDedup_sublist _ [], ?_⟩
    intro s hs hne
    exact mergeDedup_covers _ [] s hs hne (List.not_mem_nil _)

def c2Rec1 : Item :=
  { published_utc := 5, source := "s1".data, title := "T".data, url := some "u".data,
    ttp_desc := ["Phishing (T1566.002)".data], threat_actor := "",
    affected_countries := ["Sweden".data] }

def c2Rec2 : Item :=
  { published_utc := 9, source := "s2".data, title := "T".data, url := some "u".data,
    ttp_desc := [], threat_actor := "",
    affected_countries := ["France".data, "sweden".data] }

/-- C2 witness: two records with the same `(url, title)` aggregate — via
`c2_merge_same_key` — to exactly one row, and that row's country union
evaluates to first-seen order with the case-duplicate dropped. -/
theorem c2_witness :
    (aggregate [c2Rec1, c2Rec2]).filter
        (fun r => r.url == some "u".data && r.title == "T".data) =
      [rowOf [c2Rec1, c2Rec2] ("u".data, "T".data)] ∧
    (rowOf [c2Rec1, c2Rec2] ("u".data, "T".data)).affected_countries =
      ["Sweden".data, "France".data] :=
  ⟨(c2_merge_same_key [c2Rec1, c2Rec2] "u".data "T".data (by decide)).1, by decide⟩

/-- C7: every record returned by `poll_feed` carries a successfully parsed
timestamp no older than `since`, and entries whose date is unparseable or
too old are skipped (producing `none`, never an error). -/
theorem c7_recency_filter :
    ∀ (env : Env) (since : Int) (entries : List Entry),
      (∀ it ∈ poll_feed env since entries,
        since ≤ it.published_utc ∧
        ∃ e ∈ entries, parseWhen env (firstDate e) = some it.published_utc) ∧
      (∀ e ∈ entries, parseWhen env (firstDate e) = none →
        processEntry env since e = none) ∧
      (∀ e ∈ entries, ∀ ts : Int, parseWhen env (firstDate e) = some ts →
        ts < since → processEntry env since e = none) := by
  intro env since entries
  refine ⟨?_, ?_, ?_⟩
  · intro it hit
    rcases List.mem_filterMap.mp hit with ⟨e, he, hpe⟩
    cases hw : parseWhen env (firstDate e) with
    | none =>
      simp only [processEntry, hw] at hpe
      exact Option.noConfusion hpe
    | some ts =>
      simp only [processEntry, hw] at hpe
      by_cases hlt : ts < since
      · rw [if_pos hlt] at hpe
        cases hpe
      · rw [if_neg hlt] at hpe
        cases hpe
        exact ⟨Int.not_lt.mp hlt, e, he, hw⟩
  · intro e _ hw
    simp only [processEntry, hw]
  · intro e _ ts hw hlt
    simp only [processEntry, hw]
    rw [if_pos hlt]

def c7Env : Env :=
  { pyc := none, spacyEnts := none,
    dateParse := fun s => if s = "bad".data then none else some 7,
    soupText := fun _ => [], fetchArticle := fun _ => [],
    tldSuffix := fun _ => [], domain := fun _ => [],
    geoResolve := fun _ => none, research := fun _ _ => false }

def c7Bad : Entry :=
  { link := none, title := "x".data, published := some "bad".data,
    updated := none, summary := [] }

/-- C7 witness: an entry whose date does not parse is skipped, via
`c7_recency_filter`. -/
theorem c7_witness : processEntry c7Env 0 c7Bad = none :=
  (c7_recency_filter c7Env 0 [c7Bad]).2.1 c7Bad (List.mem_cons_self c7Bad []) (by decide)

/-- C5: with NER disabled and no GeoIP involvement, on the text
`"Recent attacks hit Sweden and the USA."` with no source URL, the
country-table scan contributes `"Sweden"` (the only pycountry name
occurring in the text, stated as the hypothesis on the external pycountry
data) and the alias scan then contributes `"United States"` (computed from
the repository's `_ALIASES` table), in that priority order, with no
exception — `detect_countries` is total. -/
theorem c5_resolver_degraded :
    ∀ (env : Env) (pc : PyCountry),
      env.spacyEnts = none →
      env.pyc = some pc →
      namePass pc (lowerStr "Recent attacks hit Sweden and the USA.".data) ([], []) =
        (["Sweden".data], ["Sweden".data]) →
      detect_countries env "Recent attacks hit Sweden and the USA.".data none =
        ["Sweden".data, "United States".data] := by
  intro env pc hspacy hpyc hname
  rw [detect_countries, if_neg (by decide)]
  simp only [hspacy, hpyc]
  rw [hname]
  show (aliasPass (lowerStr "Recent attacks hit Sweden and the USA.".data)
      (nativePass (lowerStr "Recent attacks hit Sweden and the USA.".data)
        (["Sweden".data], ["Sweden".data]))).2 =
    ["Sweden".data, "United States".data]
  decide

def c5Pc : PyCountry :=
  { nameToAlpha := [("sweden".data, "se".data)],
    alphaToName := [("SE".data, "Sweden".data)],
    alpha2 := fun _ => none, alpha3 := fun _ => none, fuzzy := fun _ => none }

def c5Env : Env :=
  { pyc := some c5Pc, spacyEnts := none,
    dateParse := fun _ => some 0, soupText := fun _ => [],
    fetchArticle := fun _ => [], tldSuffix := fun _ => [],
    domain := fun _ => [], geoResolve := fun _ => none,
    research := fun _ _ => false }

/-- C5 witness: with a concrete minimal pycountry data set whose only name
matching the text is `sweden → SE → "Sweden"`, the resolver returns
exactly `["Sweden", "United States"]`, via `c5_resolver_degraded`. -/
theorem c5_witness :
    detect_countries c5Env "Recent attacks hit Sweden and the USA.".data none =
      ["Sweden".data, "United States".data] :=
  c5_resolver_degraded c5Env c5Pc rfl rfl (by decide)

/-- Does the pattern contain a literal ASCII-uppercase character? -/
def hasUpperLit (ts : List RTok) : Bool :=
  ts.any (fun t =>
    match t with
    | RTok.lit c => decide (65 ≤ c.toNat) && decide (c.toNat ≤ 90)
    | _ => false)

theorem charOfNat_toNat (n : Nat) (h : n < 55296) : (Char.ofNat n).toNat = n := by
  have hv : n.isValidChar := Or.inl h
  simp [Char.ofNat, hv, Char.ofNatAux, Char.toNat, UInt32.toNat, BitVec.toNat_ofNatLt]

theorem lowerChar_cond_false (c : Char) :
    (decide (65 ≤ (lowerChar c).toNat) && decide ((lowerChar c).toNat ≤ 90)) = false := by
  rw [lowerChar]
  by_cases h : (decide (65 ≤ c.toNat) && decide (c.toNat ≤ 90)) = true
  · rw [if_pos h]
    have h1 : 65 ≤ c.toNat ∧ c.toNat ≤ 90 := by
      simpa [Bool.and_eq_true, decide_eq_true_iff] using h
    have h2 : (Char.ofNat (c.toNat + 32)).toNat = c.toNat + 32 :=
      charOfNat_toNat _ (by omega)
    have h3 : ¬((Char.ofNat (c.toNat + 32)).toNat ≤ 90) := by
      rw [h2]
      omega
    simp [h3]
  · rw [if_neg h]
    exact Bool.eq_false_iff.mpr h

theorem lowerChar_not_upper (c : Char) :
    ¬(65 ≤ (lowerChar c).toNat ∧ (lowerChar c).toNat ≤ 90) := by
  have h := lowerChar_cond_false c
  intro hc
  simp only [Bool.and_eq_false_iff, decide_eq_false_iff_not] at h
  rcases h with h | h
  · exact h hc.1
  · exact h hc.2

theorem lowerChar_idem (c : Char) : lowerChar (lowerChar c) = lowerChar c := by
  have h := lowerChar_cond_false c
  conv_lhs => rw [lowerChar]
  simp [h]

theorem lowerStr_idem (s : Str) : lowerStr (lowerStr s) = lowerStr s := by
  rw [lowerStr, lowerStr, List.map_map]
  exact List.map_congr_left (fun a _ => lowerChar_idem a)

theorem lowerStr_no_upper (s : Str) :
    ∀ c ∈ lowerStr s, ¬(65 ≤ c.toNat ∧ c.toNat ≤ 90) := by
  intro c hc
  rcases List.mem_map.mp hc with ⟨d, _, rfl⟩
  exact lowerChar_not_upper d

theorem matchToks_nil (last : Option Char) (s : Str) (k : Option Char → Str → Bool) :
    matchToks [] last s k = k last s := rfl

theorem matchToks_lit (c : Char) (ts : List RTok) (last : Option Char) (s : Str)
    (k : Option Char → Str → Bool) :
    matchToks (RTok.lit c :: ts) last s k =
      (match s with
       | [] => false
       | a :: s' => a == c && matchToks ts (some a) s' k) := rfl

theorem matchToks_ws (ts : List RTok) (last : Option Char) (s : Str)
    (k : Option Char → Str → Bool) :
    matchToks (RTok.ws :: ts) last s k =
      skipSpaces (fun last' s' => matchToks ts last' s' k) last s := rfl

theorem matchToks_opt (c : Char) (ts : List RTok) (last : Option Char) (s : Str)
    (k : Option Char → Str → Bool) :
    matchToks (RTok.opt c :: ts) last s k =
      ((match s with
        | [] => false
        | a :: s' => a == c && matchToks ts (some a) s' k) ||
       matchToks ts last s k) := rfl

theorem hasUpperLit_lit_cons (c : Char) (ts : List RTok) :
    hasUpperLit (RTok.lit c :: ts) =
      ((decide (65 ≤ c.toNat) && decide (c.toNat ≤ 90)) || hasUpperLit ts) := rfl

theorem hasUpperLit_ws_cons (ts : List RTok) :
    hasUpperLit (RTok.ws :: ts) = hasUpperLit ts := by
  rw [hasUpperLit, List.any_cons]
  rfl

theorem hasUpperLit_opt_cons (c : Char) (ts : List RTok) :
    hasUpperLit (RTok.opt c :: ts) = hasUpperLit ts := by
  rw [hasUpperLit, List.any_cons]
  rfl

theorem skipSpaces_false (f : Option Char → Str → Bool) :
    ∀ (s : Str) (last : Option Char),
      (∀ last' s', s' <:+ s → f last' s' = false) → skipSpaces f last s = false := by
  intro s
  induction s with
  | nil =>
    intro last h
    rw [skipSpaces, h last [] (List.suffix_refl [])]
    rfl
  | cons a s' ih =>
    intro last h
    rw [skipSpaces, h last (a :: s') (List.suffix_refl _)]
    have hrec : skipSpaces f (some a) s' = false :=
      ih (some a) (fun last' s'' hs =>
        h last' s'' (hs.trans (List.suffix_cons a s')))
    simp [hrec]

theorem matchToks_upper_false :
    ∀ (ts : List RTok) (last : Option Char) (s : Str) (k : Option Char → Str → Bool),
      hasUpperLit ts = true →
      (∀ c ∈ s, ¬(65 ≤ c.toNat ∧ c.toNat ≤ 90)) →
      matchToks ts last s k = false := by
  intro ts
  induction ts with
  | nil =>
    intro last s k h
    simp [hasUpperLit] at h
  | cons t ts ih =>
    intro last s k h hno
    match t with
    | RTok.lit c =>
      rw [matchToks_lit]
      cases s with
      | nil => rfl
      | cons a s' =>
        by_cases hupper : 65 ≤ c.toNat ∧ c.toNat ≤ 90
        · have hne : (a == c) = false :=
            beq_eq_false_iff_ne.mpr
              (fun hc => hno a (List.mem_cons_self a s') (hc ▸ hupper))
          simp [hne]
        · have hts : hasUpperLit ts = true := by
            rw [hasUpperLit_lit_cons] at h
            by_cases hA : (decide (65 ≤ c.toNat) && decide (c.toNat ≤ 90)) = true
            · exfalso
              simp only [Bool.and_eq_true, decide_eq_true_eq] at hA
              exact hupper hA
            · rw [Bool.eq_false_iff.mpr hA] at h
              simpa using h
          have hrec : matchToks ts (some a) s' k = false :=
            ih (some a) s' k hts
              (fun c' hc' => hno c' (List.mem_cons_of_mem a hc'))
          simp [hrec]
    | RTok.ws =>
      rw [matchToks_ws]
      rw [hasUpperLit_ws_cons] at h
      exact skipSpaces_false _ s last
        (fun last' s' hs =>
          ih last' s' k h (fun c' hc' => hno c' (hs.subset hc')))
    | RTok.opt c =>
      rw [matchToks_opt]
      rw [hasUpperLit_opt_cons] at h
      cases s with
      | nil =>
        have hrec : matchToks ts last [] k = false := ih last [] k h (by simp)
        simp [hrec]
      | cons a s' =>
        have hrec1 : matchToks ts (some a) s' k = false :=
          ih (some a) s' k h (fun c' hc' => hno c' (List.mem_cons_of_mem a hc'))
        have hrec2 : matchToks ts last (a :: s') k = false := ih last (a :: s') k h hno
        simp [hrec1, hrec2]

theorem searchPatFrom_upper_false (ts : List RTok) (h : hasUpperLit ts = true) :
    ∀ (s : Str) (prev : Option Char),
      (∀ c ∈ s, ¬(65 ≤ c.toNat ∧ c.toNat ≤ 90)) →
      searchPatFrom ts prev s = false := by
  intro s
  induction s with
  | nil =>
    intro prev hno
    rw [searchPatFrom, matchToks_upper_false ts prev [] _ h hno]
    simp
  | cons a s' ih =>
    intro prev hno
    rw [searchPatFrom, matchToks_upper_false ts prev (a :: s') _ h hno]
    have hrec := ih (some a) (fun c' hc' => hno c' (List.mem_cons_of_mem a hc'))
    simp [hrec]

/-- C10: `detect_actor` lower-cases its input before the case-sensitive
pattern search, so `detect_actor s = detect_actor (s.lower())` for every
string, and any actor pattern containing an ASCII-uppercase literal — as
the configured `\bAurora\b`, `\bmenuPass\b` and `\bredDelta\b` patterns do
— can never match inside `detect_actor`. -/
theorem c10_lowercased_search :
    (∀ s : Str, detect_actor s = detect_actor (lowerStr s)) ∧
    (∀ (lbl : String) (pats : List (List RTok)), (lbl, pats) ∈ ACTOR_PATTERNS →
      ∀ p ∈ pats, hasUpperLit p = true →
      ∀ s : Str, searchPat p (lowerStr s) = false) ∧
    (("APT17", [wpat "apt17", wpat "Aurora"]) ∈ ACTOR_PATTERNS ∧
     hasUpperLit (wpat "Aurora") = true ∧
     hasUpperLit (wpat "menuPass") = true ∧
     hasUpperLit (wpat "redDelta") = true) := by
  refine ⟨?_, ?_, by decide, by decide, by decide, by decide⟩
  · intro s
    rw [detect_actor, detect_actor, lowerStr_idem]
  · intro lbl pats _ p _ hp s
    rw [searchPat]
    exact searchPatFrom_upper_false p hp (lowerStr s) none (lowerStr_no_upper s)

/-- C10 witness: the `\bAurora\b` pattern fails on the very text
`"Aurora attack"`, via `c10_lowercased_search`. -/
theorem c10_witness :
    searchPat (wpat "Aurora") (lowerStr "Aurora attack".data) = false :=
  c10_lowercased_search.2.1 "APT17" [wpat "apt17", wpat "Aurora"]
    (by decide) (wpat "Aurora") (by decide) (by decide) "Aurora attack".data

theorem dropWhile_head_not {α : Type} (p : α → Bool) :
    ∀ (l : List α) (a : α) (t : List α), l.dropWhile p = a :: t → p a = false := by
  intro l
  induction l with
  | nil => intro a t h; cases h
  | cons b l' ih =>
    intro a t h
    rw [List.dropWhile_cons] at h
    by_cases hb : p b = true
    · rw [if_pos hb] at h
      exact ih a t h
    · rw [if_neg hb] at h
      injection h with h1 _
      rw [← h1]
      exact Bool.eq_false_iff.mpr hb

theorem dropWhile_idem {α : Type} (p : α → Bool) (l : List α) :
    (l.dropWhile p).dropWhile p = l.dropWhile p := by
  cases h : l.dropWhile p with
  | nil => rfl
  | cons a t =>
    rw [List.dropWhile_cons]
    simp [dropWhile_head_not p l a t h]

theorem mem_pyStrip (s : Str) (c : Char) (h : c ∈ pyStrip s) : c ∈ s := by
  rw [pyStrip, List.mem_reverse] at h
  have h2 := (List.dropWhile_sublist isSpaceChar).subset h
  rw [List.mem_reverse] at h2
  exact (List.dropWhile_sublist isSpaceChar).subset h2

theorem pyStrip_dropWhile (s : Str) :
    (pyStrip s).dropWhile isSpaceChar = pyStrip s := by
  obtain ⟨t', ht'⟩ :=
    @List.dropWhile_suffix Char ((s.dropWhile isSpaceChar).reverse) isSpaceChar
  have hpre : pyStrip s ++ t'.reverse = s.dropWhile isSpaceChar := by
    rw [pyStrip, ← List.reverse_append, ht', List.reverse_reverse]
  cases hps : pyStrip s with
  | nil => rfl
  | cons h t =>
    have hh : isSpaceChar h = false := by
      apply dropWhile_head_not isSpaceChar s h (t ++ t'.reverse)
      rw [← hpre, hps]
      simp
    rw [List.dropWhile_cons]
    simp [hh]

theorem pyStrip_idem (s : Str) : pyStrip (pyStrip s) = pyStrip s := by
  have h2 : (pyStrip s).reverse =
      ((s.dropWhile isSpaceChar).reverse).dropWhile isSpaceChar := by
    rw [pyStrip, List.reverse_reverse]
  conv_lhs => rw [pyStrip]
  rw [pyStrip_dropWhile, h2, dropWhile_idem, ← h2, List.reverse_reverse]

theorem flatMap_eq_self {α : Type} (f : α → List α) :
    ∀ l : List α, (∀ a ∈ l, f a = [a]) → l.flatMap f = l := by
  intro l
  induction l with
  | nil => intro _; rfl
  | cons a t ih =>
    intro h
    rw [List.flatMap_cons, h a (List.mem_cons_self a t),
      ih (fun b hb => h b (List.mem_cons_of_mem a hb))]
    rfl

theorem nfkdChar_of_small (c : Char) (h : c.toNat < 128) : nfkdChar c = [c] := by
  rw [nfkdChar]
  cases hfind : nfkdTable.find? (fun p => p.1 == c) with
  | none => rfl
  | some p =>
    exfalso
    have hmem := List.mem_of_find?_eq_some hfind
    have hpc : p.1 = c := by
      have := List.find?_some hfind
      simpa using this
    have hall : ∀ q ∈ nfkdTable, 128 ≤ q.1.toNat := by decide
    have := hall p hmem
    rw [hpc] at this
    omega

theorem isCombining_of_small (c : Char) (h : c.toNat < 128) : isCombining c = false := by
  apply Bool.eq_false_iff.mpr
  intro hc
  have hmem : c ∈ combiningTable := (contains_iff_mem _ _).mp hc
  have hall : ∀ q ∈ combiningTable, 128 ≤ q.toNat := by decide
  have := hall c hmem
  omega

theorem lowerChar_of_upper (c : Char) (h : 65 ≤ c.toNat ∧ c.toNat ≤ 90) :
    (lowerChar c).toNat = c.toNat + 32 := by
  rw [lowerChar, if_pos (by simp [h.1, h.2]), charOfNat_toNat _ (by omega)]

theorem lowerChar_of_not_upper (c : Char) (h : ¬(65 ≤ c.toNat ∧ c.toNat ≤ 90)) :
    lowerChar c = c := by
  rw [lowerChar, if_neg]
  intro hc
  simp only [Bool.and_eq_true, decide_eq_true_eq] at hc
  exact h hc

theorem nfkdTable_closed :
    nfkdTable.all (fun q => q.2.all (fun d =>
      isCombining d ||
      (decide (nfkdChar (lowerChar d) = [lowerChar d]) &&
       !isCombining (lowerChar d) &&
       decide (lowerChar (lowerChar d) = lowerChar d)))) = true := by decide

theorem norm_char_closed (c d : Char) (hd : d ∈ nfkdChar c)
    (hnc : isCombining d = false) :
    nfkdChar (lowerChar d) = [lowerChar d] ∧
    isCombining (lowerChar d) = false ∧
    lowerChar (lowerChar d) = lowerChar d := by
  rw [nfkdChar] at hd
  cases hfind : nfkdTable.find? (fun p => p.1 == c) with
  | some p =>
    rw [hfind] at hd
    have hmem := List.mem_of_find?_eq_some hfind
    have h1 := List.all_eq_true.mp nfkdTable_closed p hmem
    have h2 := List.all_eq_true.mp h1 d hd
    rw [hnc] at h2
    simp only [Bool.false_or, Bool.and_eq_true, decide_eq_true_eq,
      Bool.not_eq_true'] at h2
    exact ⟨h2.1.1, h2.1.2, h2.2⟩
  | none =>
    rw [hfind] at hd
    have hdc : d = c := by simpa using hd
    rw [← hdc] at hfind
    by_cases hup : 65 ≤ d.toNat ∧ d.toNat ≤ 90
    · have hsmall : (lowerChar d).toNat < 128 := by
        rw [lowerChar_of_upper d hup]
        omega
      exact ⟨nfkdChar_of_small _ hsmall, isCombining_of_small _ hsmall,
        lowerChar_idem d⟩
    · rw [lowerChar_of_not_upper d hup]
      refine ⟨?_, hnc, lowerChar_of_not_upper d hup⟩
      rw [nfkdChar, hfind]

theorem normalizeText_chars (s : Str) :
    ∀ c ∈ normalizeText s,
      nfkdChar c = [c] ∧ isCombining c = false ∧ lowerChar c = c := by
  intro c hc
  rw [normalizeText] at hc
  have hc2 := mem_pyStrip _ c hc
  rcases List.mem_map.mp hc2 with ⟨d, hd, rfl⟩
  have hdf := List.mem_filter.mp hd
  rcases List.mem_flatMap.mp hdf.1 with ⟨c0, _, hdc0⟩
  have hnc : isCombining d = false := by
    have := hdf.2
    simpa using this
  exact norm_char_closed c0 d hdc0 hnc

/-- C8: the text normalizer of the dedup machinery is idempotent —
`normalize(normalize(s)) = normalize(s)` for every string. -/
theorem c8_normalize_idempotent :
    ∀ s : Str, normalizeText (normalizeText s) = normalizeText s := by
  intro s
  have hP := normalizeText_chars s
  conv_lhs => rw [normalizeText]
  rw [flatMap_eq_self _ _ (fun a ha => (hP a ha).1),
    List.filter_eq_self.mpr (fun a ha => by rw [(hP a ha).2.1]; rfl)]
  have hmap : lowerStr (normalizeText s) = normalizeText s := by
    rw [lowerStr, List.map_congr_left (fun a ha => (hP a ha).2.2), List.map_id']
  rw [hmap]
  conv_lhs => rw [normalizeText]
  rw [pyStrip_idem]
  rw [normalizeText]

def envC1 : Env :=
  { pyc := none, spacyEnts := none,
    dateParse := fun _ => some 0, soupText := fun _ => [],
    fetchArticle := fun _ => [], tldSuffix := fun _ => [],
    domain := fun _ => [], geoResolve := fun _ => some "SWEDEN".data,
    research := fun _ _ => false }

def entryC1 : Entry :=
  { link := none, title := "sverige 1.2.3.4".data, published := some "now".data,
    updated := none, summary := [] }

def itemC1 : Item :=
  { published_utc := 0, source := [], title := "sverige 1.2.3.4".data,
    url := none, ttp_desc := [], threat_actor := "",
    affected_countries := ["Sweden".data, "SWEDEN".data] }

/-- C1 counterexample: with the GeoIP backend available, the MaxMind merge
loop deduplicates only by exact string equality, so a record can carry
both `"Sweden"` (from the native-alias scan) and `"SWEDEN"` (from GeoIP) —
two countries whose case/diacritic-insensitive normal forms coincide,
contradicting the claimed invariant. -/
theorem c1_counterexample :
    poll_feed envC1 0 [entryC1] = [itemC1] ∧
    normalizeText "Sweden".data = normalizeText "SWEDEN".data ∧
    "Sweden".data ≠ "SWEDEN".data := by
  refine ⟨by decide, by decide, by decide⟩

/-- Invariant of the `(seen, results)` state of `detect_countries`:
results are pairwise distinct (exact strings), recorded in `seen`, and
nonempty. -/
def CInv (st : CState) : Prop :=
  st.2.Nodup ∧ (∀ c ∈ st.2, c ∈ st.1) ∧ (∀ c ∈ st.2, c ≠ [])

theorem addCountry_cinv (st : CState) (c : Str) (h : CInv st) (hc : c ≠ []) :
    CInv (addCountry st c) := by
  rw [addCountry]
  by_cases hm : st.1.contains c = true
  · rw [if_pos hm]
    exact h
  · rw [if_neg hm]
    refine ⟨?_, ?_, ?_⟩
    · rw [List.nodup_append]
      refine ⟨h.1, List.nodup_singleton c, ?_⟩
      intro x hx hxc
      have hxe : x = c := by simpa using hxc
      rw [hxe] at hx
      exact hm ((contains_iff_mem _ _).mpr (h.2.1 c hx))
    · intro x hx
      rcases List.mem_append.mp hx with hx1 | hx2
      · exact List.mem_cons_of_mem _ (h.2.1 x hx1)
      · have hxe : x = c := by simpa using hx2
        rw [hxe]
        exact List.mem_cons_self _ _
    · intro x hx
      rcases List.mem_append.mp hx with hx1 | hx2
      · exact h.2.2 x hx1
      · have hxe : x = c := by simpa using hx2
        rw [hxe]
        exact hc

theorem foldl_cinv_preserve {α : Type} (f : CState → α → CState) :
    ∀ l : List α, (∀ st x, x ∈ l → CInv st → CInv (f st x)) →
      ∀ st, CInv st → CInv (l.foldl f st) := by
  intro l
  induction l with
  | nil => intro _ st h; exact h
  | cons a t ih =>
    intro hf st h
    rw [List.foldl_cons]
    exact ih (fun st' x hx hst => hf st' x (List.mem_cons_of_mem a hx) hst) _
      (hf st a (List.mem_cons_self a t) h)

theorem nerPass_cinv (pyc : Option PyCountry) (ents : List (Str × String)) :
    ∀ st, CInv st → CInv (nerPass pyc ents st) := by
  intro st h
  refine foldl_cinv_preserve _ ents (fun st' e _ hst => ?_) st h
  by_cases hl : (e.2 == "GPE" || e.2 == "LOC") = true
  · rw [if_pos hl]
    cases hmc : map_to_country pyc (pyStrip e.1) with
    | none => simp only [hmc]; exact hst
    | some m =>
      simp only [hmc]
      by_cases hg : (decide (m ≠ []) && !st'.1.contains m) = true
      · rw [if_pos hg]
        have hm : m ≠ [] := by
          have := (Bool.and_eq_true _ _).mp hg
          exact decide_eq_true_eq.mp this.1
        exact addCountry_cinv _ _ hst hm
      · rw [if_neg hg]
        exact hst
  · rw [if_neg hl]
    exact hst

theorem namePass_cinv (pc : PyCountry) (tl : Str)
    (hwf : ∀ a r, pc.alpha2 a = some r → r ≠ []) :
    ∀ st, CInv st → CInv (namePass pc tl st) := by
  intro st h
  refine foldl_cinv_preserve _ _ (fun st' p _ hst => ?_) st h
  by_cases hws : wordSearch p.1 tl = true
  · rw [if_pos hws]
    cases hcan : (match lookupStr pc.alphaToName (upperStr p.2) with
                  | some v => if v ≠ [] then some v else pc.alpha2 p.2
                  | none => pc.alpha2 p.2) with
    | none => simp only [hcan]; exact hst
    | some canonical =>
      simp only [hcan]
      have hne : canonical ≠ [] := by
        cases hlk : lookupStr pc.alphaToName (upperStr p.2) with
        | none =>
          simp only [hlk] at hcan
          exact hwf _ _ hcan
        | some v =>
          simp only [hlk] at hcan
          by_cases hv : v ≠ []
          · rw [if_pos hv] at hcan
            injection hcan with hcv
            rw [← hcv]
            exact hv
          · rw [if_neg hv] at hcan
            exact hwf _ _ hcan
      by_cases hm : st'.1.contains canonical = true
      · have hb : (!st'.1.contains canonical) = false := by rw [hm]; rfl
        rw [if_neg (by intro hc; rw [hb] at hc; exact Bool.false_ne_true hc)]
        exact hst
      · have hb : (!st'.1.contains canonical) = true := by
          rw [Bool.eq_false_iff.mpr hm]
          rfl
        rw [if_pos hb]
        exact addCountry_cinv _ _ hst hne
  · rw [if_neg hws]
    exact hst

theorem nativePass_cinv (tl : Str) : ∀ st, CInv st → CInv (nativePass tl st) := by
  have hval : ∀ p ∈ NATIVE_ALIAS_TO_EN, p.2 ≠ [] := by decide
  intro st h
  refine foldl_cinv_preserve _ _ (fun st' p hp hst => ?_) st h
  by_cases hc : (wordSearch p.1 tl && !st'.1.contains p.2) = true
  · rw [if_pos hc]
    exact addCountry_cinv _ _ hst (hval p hp)
  · rw [if_neg hc]
    exact hst

theorem aliasPass_cinv (tl : Str) : ∀ st, CInv st → CInv (aliasPass tl st) := by
  have hval : ∀ p ∈ ALIASES, p.2 ≠ [] := by decide
  intro st h
  refine foldl_cinv_preserve _ _ (fun st' p hp hst => ?_) st h
  by_cases hc : (wordSearch p.1 tl && !st'.1.contains p.2) = true
  · rw [if_pos hc]
    exact addCountry_cinv _ _ hst (hval p hp)
  · rw [if_neg hc]
    exact hst

theorem tldPass_cinv (env : Env) (url : Option Str)
    (hwf : ∀ pc, env.pyc = some pc → ∀ a r, pc.alpha2 a = some r → r ≠ []) :
    ∀ st, CInv st → CInv (tldPass env url st) := by
  intro st h
  cases url with
  | none => exact h
  | some u =>
    simp only [tldPass]
    split
    · exact h
    · split
      · next pc hpc =>
        split
        · split
          · next nm ha =>
            split
            · exact addCountry_cinv _ _ h (hwf pc hpc _ _ ha)
            · exact h
          · exact h
        · exact h
      · exact h

theorem detect_countries_inv (env : Env)
    (hwf : ∀ pc, env.pyc = some pc → ∀ a r, pc.alpha2 a = some r → r ≠ [])
    (text : Str) (url : Option Str) :
    (detect_countries env text url).Nodup ∧
    ∀ c ∈ detect_countries env text url, c ≠ [] := by
  have h0 : CInv (([], []) : CState) := ⟨List.nodup_nil, by simp, by simp⟩
  simp only [detect_countries]
  by_cases ht : text = []
  · rw [if_pos ht]
    simp
  · rw [if_neg ht]
    cases hsp : env.spacyEnts with
    | none =>
      cases hpc : env.pyc with
      | none =>
        have h5 := tldPass_cinv env url hwf _
          (aliasPass_cinv (lowerStr text) _ (nativePass_cinv (lowerStr text) _ h0))
        exact ⟨h5.1, h5.2.2⟩
      | some pc =>
        have h5 := tldPass_cinv env url hwf _
          (aliasPass_cinv (lowerStr text) _ (nativePass_cinv (lowerStr text) _
            (namePass_cinv pc (lowerStr text) (hwf pc hpc) _ h0)))
        exact ⟨h5.1, h5.2.2⟩
    | some ents =>
      cases hpc : env.pyc with
      | none =>
        have h1 : CInv (nerPass none (ents text) ([], [])) :=
          nerPass_cinv none (ents text) _ h0
        have h5 := tldPass_cinv env url hwf _
          (aliasPass_cinv (lowerStr text) _ (nativePass_cinv (lowerStr text) _ h1))
        exact ⟨h5.1, h5.2.2⟩
      | some pc =>
        have h1 : CInv (nerPass (some pc) (ents text) ([], [])) :=
          nerPass_cinv (some pc) (ents text) _ h0
        have h5 := tldPass_cinv env url hwf _
          (aliasPass_cinv (lowerStr text) _ (nativePass_cinv (lowerStr text) _
            (namePass_cinv pc (lowerStr text) (hwf pc hpc) _ h1)))
        exact ⟨h5.1, h5.2.2⟩

theorem geoAppend_inv (cs : List Str) (gc : Str)
    (h1 : cs.Nodup) (h2 : ∀ c ∈ cs, c ≠ []) (hg : gc ≠ []) (hm : ¬ gc ∈ cs) :
    (cs ++ [gc]).Nodup ∧ ∀ c ∈ cs ++ [gc], c ≠ [] := by
  constructor
  · rw [List.nodup_append]
    refine ⟨h1, List.nodup_singleton gc, ?_⟩
    intro x hx hxg
    have hxe : x = gc := by simpa using hxg
    rw [hxe] at hx
    exact hm hx
  · intro c hc
    rcases List.mem_append.mp hc with hc1 | hc2
    · exact h2 c hc1
    · have hce : c = gc := by simpa using hc2
      rw [hce]
      exact hg

theorem geoMerge_inv (env : Env) (blob : Str) :
    ∀ cs : List Str, cs.Nodup → (∀ c ∈ cs, c ≠ []) →
      (geoMerge env blob cs).Nodup ∧ ∀ c ∈ geoMerge env blob cs, c ≠ [] := by
  have key : ∀ (ips : List Str) (cs : List Str), cs.Nodup → (∀ c ∈ cs, c ≠ []) →
      (ips.foldl
        (fun cs ip =>
          if validIPv4 ip then
            match env.geoResolve ip with
            | some gc => if gc ≠ [] && !cs.contains gc then cs ++ [gc] else cs
            | none => cs
          else cs) cs).Nodup ∧
      ∀ c ∈ ips.foldl
        (fun cs ip =>
          if validIPv4 ip then
            match env.geoResolve ip with
            | some gc => if gc ≠ [] && !cs.contains gc then cs ++ [gc] else cs
            | none => cs
          else cs) cs, c ≠ [] := by
    intro ips
    induction ips with
    | nil => intro cs h1 h2; exact ⟨h1, h2⟩
    | cons ip t ih =>
      intro cs h1 h2
      rw [List.foldl_cons]
      by_cases hv : validIPv4 ip = true
      · rw [if_pos hv]
        cases hg : env.geoResolve ip with
        | none => simp only [hg]; exact ih cs h1 h2
        | some gc =>
          simp only [hg]
          by_cases hcond : (decide (gc ≠ []) && !cs.contains gc) = true
          · rw [if_pos hcond]
            have hc1 := (Bool.and_eq_true _ _).mp hcond
            have hgne : gc ≠ [] := decide_eq_true_eq.mp hc1.1
            have hgnm : ¬ gc ∈ cs := by
              intro hmem
              have hx := hc1.2
              rw [(contains_iff_mem _ _).mpr hmem] at hx
              exact Bool.false_ne_true hx
            have hstep := geoAppend_inv cs gc h1 h2 hgne hgnm
            exact ih _ hstep.1 hstep.2
          · rw [if_neg hcond]
            exact ih cs h1 h2
      · rw [if_neg hv]
        exact ih cs h1 h2
  intro cs h1 h2
  rw [geoMerge]
  exact key (extract_ips blob) cs h1 h2

theorem classify_subset_descAll (rm : String → Str → Bool) (text : Str) :
    ∀ x ∈ classify rm text, x ∈ descAll := by
  intro x hx
  rw [classify] at hx
  have hx2 := (List.perm_insertionSort _ _).mem_iff.mp hx
  have hx3 := List.mem_dedup.mp hx2
  rcases List.mem_flatMap.mp hx3 with ⟨m, hm, hxm⟩
  have hmM : m ∈ MAPPINGS := (List.mem_filter.mp hm).1
  rcases List.mem_map.mp hxm with ⟨d, hd, rfl⟩
  rw [descAll]
  exact List.mem_map.mpr ⟨d, List.mem_flatMap.mpr ⟨m, hmM, hd⟩, rfl⟩

theorem classify_nodup (rm : String → Str → Bool) (text : Str) :
    (classify rm text).Nodup :=
  (List.perm_insertionSort _ _).nodup_iff.mpr (List.nodup_dedup _)

theorem descAll_nonempty : ∀ x ∈ descAll, x ≠ [] := by decide

theorem descAll_norm_inj :
    ∀ x ∈ descAll, ∀ y ∈ descAll, x ≠ y → normalizeText x ≠ normalizeText y := by
  decide

theorem classify_pairwise_norm (rm : String → Str → Bool) (text : Str) :
    List.Pairwise (fun a b => normalizeText a ≠ normalizeText b) (classify rm text) := by
  refine List.Pairwise.imp_of_mem ?_ (classify_nodup rm text)
  intro a b ha hb hne
  exact descAll_norm_inj a (classify_subset_descAll rm text a ha)
    b (classify_subset_descAll rm text b hb) hne

/-- C1 (amended): for every record produced by `poll_feed` — with any
NER/GeoIP availability, and pycountry data whose country names are
nonempty — `countries` and `techniques` contain no empty strings;
`techniques` has no two entries with equal normalized forms; `countries`
has no two entries equal as exact strings (the dedup everywhere is by
exact string equality, and — per the counterexample — the GeoIP merge can
introduce entries that collide only after case/diacritic normalization). -/
theorem c1_amended_record_invariants :
    ∀ (env : Env) (since : Int) (entries : List Entry),
      (∀ pc, env.pyc = some pc → ∀ a r, pc.alpha2 a = some r → r ≠ []) →
      ∀ it ∈ poll_feed env since entries,
        (∀ c ∈ it.affected_countries, c ≠ []) ∧
        it.affected_countries.Nodup ∧
        (∀ c ∈ it.ttp_desc, c ≠ []) ∧
        List.Pairwise (fun a b => normalizeText a ≠ normalizeText b) it.ttp_desc := by
  intro env since entries hwf it hit
  rcases List.mem_filterMap.mp hit with ⟨e, he, hpe⟩
  cases hw : parseWhen env (firstDate e) with
  | none =>
    simp only [processEntry, hw] at hpe
    exact Option.noConfusion hpe
  | some ts =>
    simp only [processEntry, hw] at hpe
    by_cases hlt : ts < since
    · rw [if_pos hlt] at hpe
      exact Option.noConfusion hpe
    · rw [if_neg hlt] at hpe
      cases hpe
      have hdc := detect_countries_inv env hwf
        (pyStrip e.title ++ '\n' :: env.soupText e.summary ++ '\n' ::
          (match e.link with
           | some l => if l = [] then [] else env.fetchArticle l
           | none => []))
        e.link
      have hgm := geoMerge_inv env
        (pyStrip e.title ++ '\n' :: env.soupText e.summary ++ '\n' ::
          (match e.link with
           | some l => if l = [] then [] else env.fetchArticle l
           | none => []))
        _ hdc.1 hdc.2
      refine ⟨hgm.2, hgm.1, ?_, classify_pairwise_norm _ _⟩
      intro c hc
      exact descAll_nonempty c (classify_subset_descAll _ _ c hc)

/-- C1 witness for the amended invariants, at the same concrete pipeline
input as the counterexample, via `c1_amended_record_invariants`. -/
theorem c1_witness :
    itemC1.affected_countries.Nodup ∧ ∀ c ∈ itemC1.ttp_desc, c ≠ [] :=
  have h := c1_amended_record_invariants envC1 0 [entryC1]
    (fun pc hpc => nomatch hpc) itemC1 (by decide)
  ⟨h.2.1, h.2.2.1⟩

end ThreatIntel
